import Mathlib

/-! # Ogg framing of Opus packets (taruti/opus, `opus.go`)

A shallow embedding of the container-framing code of `opus.go`: the page
checksum, the page header writer `oggSplatHeader`, the page builders
`encoderWriteBuf`, `EncodeSilence` and `StreamHeader`, and the session counter
`psn`.

Conventions of the embedding.

* A Go `byte` is a `Nat`; the conversion `byte(x)` is `x % 256`.
* A Go `uint32` is a `Nat`; arithmetic that can wrap is reduced `% 2 ^ 32`.
* A Go `[]byte` is a `List Nat`.  Every slice of the program is either made by
  `make` or a literal (capacity = length) or the nil slice (capacity 0), so the
  capacity of `xs` is `xs.length`.  A sub-slice `out[k:]` aliases its parent:
  an operation on it is embedded as an operation on the parent's suffix
  (`onSliceFrom`).
* A run-time panic (index or slice bound out of range, `makeslice`) is `none`
  inside the helpers and `Outcome.panicked` at the level of the API functions.
* The codec (libopus, reached through cgo) is not part of the program: a codec
  call is represented by what it did, the bytes it wrote into the output
  region and the `opus_int32` it returned.
-/

namespace Opus

/-! ## Go standard library: `hash/crc32`, `encoding/binary`, builtins -/

/-- Modelled from the spec: one of the eight steps with which
`hash/crc32.simplePopulateTable` (Go standard library, not under `src/`) builds
a table entry: `if crc&1 == 1 then (crc >> 1) ^ poly else crc >> 1`. -/
def tableStep (poly crc : Nat) : Nat :=
  if crc &&& 1 = 1 then (crc >>> 1) ^^^ poly else crc >>> 1

/-- Modelled from the spec: entry `i` of the table built by `crc32.MakeTable`:
eight `tableStep`s applied to `i`. -/
def tableEntry (poly i : Nat) : Nat :=
  tableStep poly (tableStep poly (tableStep poly (tableStep poly
    (tableStep poly (tableStep poly (tableStep poly (tableStep poly i)))))))

/-- Modelled from the spec: `crc32.MakeTable(poly)` for a polynomial that is
neither `crc32.IEEE` nor `crc32.Castagnoli`: the 256-entry table. -/
def MakeTable (poly : Nat) : List Nat :=
  (List.range 256).map (tableEntry poly)

/-- Modelled from the spec: the loop body of `crc32.simpleUpdate`:
`crc = tab[byte(crc)^v] ^ (crc >> 8)`. -/
def updateByte (tab : List Nat) (crc v : Nat) : Nat :=
  tab.getD ((crc % 256) ^^^ (v % 256)) 0 ^^^ (crc >>> 8)

/-- Modelled from the spec: `crc32.simpleUpdate(crc, tab, p)`: invert the
register, fold every byte, invert again (`^crc` on a `uint32`). -/
def simpleUpdate (crc : Nat) (tab : List Nat) (p : List Nat) : Nat :=
  (p.foldl (updateByte tab) (crc ^^^ 0xFFFFFFFF)) ^^^ 0xFFFFFFFF

/-- Modelled from the spec: `crc32.Checksum(data, tab)`, which is
`Update(0, tab, data)`. -/
def Checksum (data : List Nat) (tab : List Nat) : Nat :=
  simpleUpdate 0 tab data

/-- The variable `oggCrc32 = crc32.MakeTable(0x04c11db7)`. -/
def oggCrc32 : List Nat := MakeTable 0x04c11db7

/-! ### The reference checksum of the claim (from the specification's words) -/

/-- One step of the left-shifting reduction on a 32-bit register: shift
left, and when the bit shifted out was set, subtract (xor) the generator
polynomial. -/
def msbStep (poly crc : Nat) : Nat :=
  if crc &&& 0x80000000 = 0x80000000 then ((crc <<< 1) % 2 ^ 32) ^^^ poly
  else (crc <<< 1) % 2 ^ 32

/-- Folding one byte, most significant bit first: the byte enters at the top
of the register, followed by eight reduction steps. -/
def msbByte (poly crc b : Nat) : Nat :=
  msbStep poly (msbStep poly (msbStep poly (msbStep poly
    (msbStep poly (msbStep poly (msbStep poly (msbStep poly
      (crc ^^^ ((b % 256) <<< 24)))))))))

/-- The checksum of the Ogg container as the specification words it: CRC-32
with generator polynomial `0x04C11DB7`, non-reflected, initial register 0, no
final inversion. -/
def oggCrcReference (bs : List Nat) : Nat :=
  bs.foldl (msbByte 0x04C11DB7) 0

/-! ### Builtins and `encoding/binary` -/

/-- The conversion `byte(x)` of a Go integer: its low eight bits. -/
def byte (x : Int) : Nat := (x % 256).toNat

/-- The builtin `copy(dst, src)`: the first `min(len(dst), len(src))` elements
of `dst` are overwritten. -/
def copy (dst src : List Nat) : List Nat :=
  src.take dst.length ++ dst.drop src.length

/-- The assignment `out[i] = v`; `none` is the index-out-of-range panic. -/
def setIdx (out : List Nat) (i v : Nat) : Option (List Nat) :=
  if i < out.length then some (out.set i v) else none

/-- An in-place operation `f` applied to the sub-slice `out[k:]`; `none` when
`k` exceeds the length (slice bounds out of range) or `f` panics. -/
def onSliceFrom (out : List Nat) (k : Nat) (f : List Nat → Option (List Nat)) :
    Option (List Nat) :=
  if k ≤ out.length then (f (out.drop k)).map (fun t => out.take k ++ t) else none

/-- The slice expression `xs[lo:hi]`; `none` unless `lo ≤ hi ≤ cap(xs)`. -/
def slice (xs : List Nat) (lo hi : Nat) : Option (List Nat) :=
  if lo ≤ hi ∧ hi ≤ xs.length then some ((xs.take hi).drop lo) else none

/-- The function `binary.LittleEndian.PutUint32(b, v)`: bounds check `b[3]`,
then `b[0] = byte(v)`, `b[1] = byte(v >> 8)`, `b[2] = byte(v >> 16)`,
`b[3] = byte(v >> 24)`. -/
def putUint32 (b : List Nat) (v : Nat) : Option (List Nat) :=
  if 3 < b.length then
    some ((((b.set 0 (v % 256)).set 1 ((v >>> 8) % 256)).set 2
      ((v >>> 16) % 256)).set 3 ((v >>> 24) % 256))
  else none

/-- The little-endian 32-bit number held in `bs[off .. off+3]`. -/
def le32At (bs : List Nat) (off : Nat) : Nat :=
  bs.getD off 0 + 2 ^ 8 * bs.getD (off + 1) 0 + 2 ^ 16 * bs.getD (off + 2) 0
    + 2 ^ 24 * bs.getD (off + 3) 0

/-! ## The program -/

/-- The constant `FRAMING_NONE`. -/
def FRAMING_NONE : Int := 0
/-- The constant `FRAMING_OGG`. -/
def FRAMING_OGG : Int := 1
/-- The constant `APPLICATION_AUDIO`. -/
def APPLICATION_AUDIO : Int := 2049

/-- The struct `EncoderConfig`. -/
structure EncoderConfig where
  SamplingRate : Int
  Channels : Int
  Application : Int
  Framing : Int
deriving DecidableEq

/-- The struct `Encoder`: `ctx` is the codec handle (0 is the nil pointer),
`psn` a `uint32`. -/
structure Encoder where
  ctx : Nat
  buf : List Nat
  cfg : EncoderConfig
  psn : Nat
deriving DecidableEq

/-- The variable `DefaultConfig = EncoderConfig{48000, 2, APPLICATION_AUDIO, FRAMING_OGG}`. -/
def DefaultConfig : EncoderConfig := ⟨48000, 2, APPLICATION_AUDIO, FRAMING_OGG⟩

/-- What a call of an API function does: it returns its pair of results (a
byte slice, nil being `[]`, and an error, nil being `none`) or it panics. -/
inductive Outcome where
  | returned (bs : List Nat) (err : Option String)
  | panicked (msg : String)
deriving DecidableEq

/-- The constructor `NewEncoder(c)`; `handle` is what `opus_encoder_create` returned. -/
def NewEncoder (c : EncoderConfig) (handle : Nat) : Option Encoder :=
  if handle = 0 then none
  else some { ctx := handle, buf := List.replicate (256 * 1024) 0, cfg := c, psn := 2 }

/-- The constant `oggBufFrameOffset = 0x200`. -/
def oggBufFrameOffset : Nat := 0x200

/-- The variable `oggHeaderZero`: 'O','g','g','S', version and flags, eight granule
bytes, the serial number, four zero bytes. -/
def oggHeaderZero : List Nat :=
  [79, 103, 103, 83,
   0, 0,
   0, 0, 0, 0, 0, 0, 0, 0,
   0x11, 0x22, 0x33, 0x44,
   0, 0, 0, 0]

/-- The function `oggPageHeaderSizeFor(datalen)`. -/
def oggPageHeaderSizeFor (datalen : Nat) : Nat :=
  27 + ((datalen + 0xFE) / 0xFF)

/-- The function `oggChecksum(bs)`:
`binary.LittleEndian.PutUint32(bs[22:], crc32.Checksum(bs, oggCrc32))`. -/
def oggChecksum (bs : List Nat) : Option (List Nat) :=
  onSliceFrom bs 22 (fun b => putUint32 b (Checksum bs oggCrc32))

/-- The lacing loop `for ; datalen > 0xFF; idx++ { out[idx] = 0xFF; datalen -= 0xFF }`
of `oggSplatHeader` and `EncodeSilence`, returning the buffer, the index and
the remaining length at loop exit.  The first argument bounds the number of
iterations; `datalen` itself is always enough (`lacingLoop_fuel`,
`lacingLoop_exit`). -/
def lacingLoop : Nat → List Nat → Nat → Nat → Option (List Nat × Nat × Nat)
  | 0, out, idx, datalen => some (out, idx, datalen)
  | fuel + 1, out, idx, datalen =>
    if datalen > 0xFF then
      match setIdx out idx 0xFF with
      | none => none
      | some out1 => lacingLoop fuel out1 (idx + 1) (datalen - 0xFF)
    else some (out, idx, datalen)

/-- The function `oggSplatHeader(out, psn, datalen)`.  Both callers pass a non-negative
`datalen`, so it is a `Nat`. -/
def oggSplatHeader (out : List Nat) (psn : Nat) (datalen : Nat) : Option (List Nat) :=
  let out0 := copy out oggHeaderZero
  match onSliceFrom out0 18 (fun b => putUint32 b psn) with
  | none => none
  | some out1 =>
    match setIdx out1 26 (byte (((datalen + 0xFE) / 0xFF : Nat) : Int)) with
    | none => none
    | some out2 =>
      match lacingLoop datalen out2 27 datalen with
      | none => none
      | some (out3, i, rest) => setIdx out3 i (byte (rest : Int))

/-- The function `encoderGetBufForRaw(e)`: the fresh 4096-byte buffer `whole` and the offset
in it at which `partial`, the region handed to the codec, begins. -/
def encoderGetBufForRaw (e : Encoder) : List Nat × Nat :=
  let whole := List.replicate 4096 0
  if e.cfg.Framing = FRAMING_OGG then (whole, oggBufFrameOffset) else (whole, 0)

/-- The function `encoderWriteBuf(e, all, rc)`. -/
def encoderWriteBuf (e : Encoder) (all : List Nat) (rc : Int) : Outcome × Encoder :=
  if rc < 0 then (.returned [] (some "Opus encoding error"), e)
  else
    let buf : List Nat := []
    if e.cfg.Framing = FRAMING_NONE then
      match slice buf 0 rc.toNat with
      | none => (.panicked "slice bounds out of range", e)
      | some buf1 => (.returned buf1 none, e)
    else if e.cfg.Framing = FRAMING_OGG then
      let hlen := 27 + ((rc.toNat + 0xFE) / 0xFF)
      if hlen > oggBufFrameOffset then
        (.returned [] (some "Ogg too large header size calculated"), e)
      else
        let hoff := oggBufFrameOffset - hlen
        match onSliceFrom all hoff (fun out => oggSplatHeader out e.psn rc.toNat) with
        | none => (.panicked "index out of range", e)
        | some all1 =>
          let e1 := { e with psn := (e.psn + 1) % 2 ^ 32 }
          match slice all1 hoff (oggBufFrameOffset + rc.toNat) with
          | none => (.panicked "slice bounds out of range", e1)
          | some buf1 =>
            match oggChecksum buf1 with
            | none => (.panicked "slice bounds out of range", e1)
            | some buf2 => (.returned buf2 none, e1)
    else (.returned [] (some "Opus unknown framing"), e)

/-- What one call of the codec did: the bytes it wrote at the start of its
output region and the `opus_int32` it returned. -/
structure CodecCall where
  data : List Nat
  rc : Int
deriving DecidableEq

/-- The buffer `whole` after the codec wrote `data` at offset `off` (nothing
is written beyond the end of the buffer). -/
def codecWrite (whole : List Nat) (off : Nat) (data : List Nat) : List Nat :=
  whole.take off ++ copy (whole.drop off) data

/-- The body shared by `unsafeEncode` (the tail of `EncodeRaw` and
`EncodeInt16`) and `EncodeFloat`: get the buffers, let the codec write, call
`encoderWriteBuf`. -/
def unsafeEncode (e : Encoder) (c : CodecCall) : Outcome × Encoder :=
  let (all, off) := encoderGetBufForRaw e
  encoderWriteBuf e (codecWrite all off c.data) c.rc

/-- The struct `Silence`. -/
structure Silence where
  raw : List Nat
  ntimes : Int
deriving DecidableEq

/-- The first loop of `EncodeSilence`, `for i := 0; i < s.ntimes; i++`: one
lacing run for `len(s.raw)` per iteration, the first argument being the number
of iterations left.  Returns the buffer and `idx`. -/
def silenceLacing : Nat → Nat → List Nat → Nat → Option (List Nat × Nat)
  | 0, _, out, idx => some (out, idx)
  | n + 1, rawlen, out, idx =>
    match lacingLoop rawlen out idx rawlen with
    | none => none
    | some (out1, idx1, rest) =>
      match setIdx out1 idx1 (byte (rest : Int)) with
      | none => none
      | some out2 => silenceLacing n rawlen out2 (idx1 + 1)

/-- The second loop of `EncodeSilence`: `copy(out[idx:], s.raw); idx += len(s.raw)`,
the first argument being the number of iterations left. -/
def silenceCopy : Nat → List Nat → List Nat → Nat → Option (List Nat × Nat)
  | 0, _, out, idx => some (out, idx)
  | n + 1, raw, out, idx =>
    match onSliceFrom out idx (fun dst => some (copy dst raw)) with
    | none => none
    | some out1 => silenceCopy n raw out1 (idx + raw.length)

/-- The method `EncodeSilence(s)`. -/
def EncodeSilence (e : Encoder) (s : Silence) : Outcome × Encoder :=
  let hlen : Int := 27 + (s.ntimes * (((s.raw.length : Int) + 0xFE) / 0xFF))
  let size : Int := hlen + (s.ntimes * (s.raw.length : Int))
  if size < 0 then (.panicked "makeslice: len out of range", e)
  else
    let out := List.replicate size.toNat 0
    match oggSplatHeader out e.psn 0 with
    | none => (.panicked "index out of range", e)
    | some out1 =>
      match setIdx out1 26 (byte (hlen - 27)) with
      | none => (.panicked "index out of range", e)
      | some out2 =>
        match silenceLacing s.ntimes.toNat s.raw.length out2 27 with
        | none => (.panicked "index out of range", e)
        | some (out3, idx) =>
          let e1 := { e with psn := (e.psn + 1) % 2 ^ 32 }
          match silenceCopy s.ntimes.toNat s.raw out3 idx with
          | none => (.panicked "slice bounds out of range", e1)
          | some (out4, _) =>
            match oggChecksum out4 with
            | none => (.panicked "slice bounds out of range", e1)
            | some out5 => (.returned out5 none, e1)

/-- The byte-slice literal `bs` of `StreamHeader`. -/
def streamHeaderLiteral (e : Encoder) : List Nat :=
  [79, 103, 103, 83,
   0, 2,
   0, 0, 0, 0, 0, 0, 0, 0,
   0x11, 0x22, 0x33, 0x44,
   0, 0, 0, 0,
   0, 0, 0, 0,
   1, 8 + 4 + 4 + 3,
   79, 112, 117, 115, 72, 101, 97, 100,
   1, byte e.cfg.Channels, 0, 0,
   0, 0, 0, 0,
   0, 0, 0,
   79, 103, 103, 83,
   0, 0,
   0, 0, 0, 0, 0, 0, 0, 0,
   0x11, 0x22, 0x33, 0x44,
   1, 0, 0, 0,
   0, 0, 0, 0,
   1, 8 + 4,
   79, 112, 117, 115, 84, 97, 103, 115,
   1, 0, 0, 0, 120]

/-- The method `StreamHeader()`.  The two checksum calls work on the
sub-slices `bs[:47]` and `bs[47:]` of the literal. -/
def StreamHeader (e : Encoder) : Outcome × Encoder :=
  if e.cfg.Framing = FRAMING_OGG then
    let bs := streamHeaderLiteral e
    if bs.length ≠ 88 ∨ (bs.take 47).length ≠ 47 ∨ (bs.drop 47).length ≠ 41 then
      (.panicked "Invalid lengths", e)
    else
      match oggChecksum (bs.take 47) with
      | none => (.panicked "slice bounds out of range", e)
      | some p0 =>
        match oggChecksum (bs.drop 47) with
        | none => (.panicked "slice bounds out of range", e)
        | some p1 => (.returned (p0 ++ p1) none, e)
  else (.returned [] none, e)

/-! ## Reading a page -/

/-- The page with its checksum field, bytes 22..25, set to zero. -/
def zeroChecksumField (page : List Nat) : List Nat :=
  (((page.set 22 0).set 23 0).set 24 0).set 25 0

/-- The segment table of a page: the byte-26-many bytes from offset 27. -/
def segmentTable (page : List Nat) : List Nat :=
  (page.drop 27).take (page.getD 26 0)

/-- The bytes of a page that follow its segment table. -/
def payload (page : List Nat) : List Nat :=
  page.drop (27 + page.getD 26 0)

/-! ## Sessions: sequences of calls -/

/-- One call on a session: an encode call (`EncodeRaw`, `EncodeInt16` or
`EncodeFloat`, represented by what the codec did) or `EncodeSilence`. -/
inductive Call where
  | encode (c : CodecCall)
  | silence (s : Silence)
deriving DecidableEq

/-- The codec's contract for a call: libopus never reports more bytes than the
3584-byte output region (`max_data_bytes = len(buf)`) it was given. -/
def Call.codecOk : Call → Bool
  | .encode c => decide (c.rc ≤ 3584)
  | .silence _ => true

/-- One call executed on the session `e`. -/
def step (e : Encoder) : Call → Outcome × Encoder
  | .encode c => unsafeEncode e c
  | .silence s => EncodeSilence e s

/-- The page of a successful call: bytes returned with a nil error. -/
def Outcome.page? : Outcome → Option (List Nat)
  | .returned bs none => some bs
  | .returned _ (some _) => none
  | .panicked _ => none

/-- A sequence of calls executed in order: the pages of the successful calls,
in order, and the session afterwards. -/
def run (e : Encoder) : List Call → List (List Nat) × Encoder
  | [] => ([], e)
  | c :: cs =>
    match (step e c).1.page? with
    | some p => (p :: (run (step e c).2 cs).1, (run (step e c).2 cs).2)
    | none => run (step e c).2 cs

/-! ## Descriptions of the buffers, used by the lemmas -/

/-- The four bytes `PutUint32` writes for `v`. -/
def le4 (v : Nat) : List Nat :=
  [v % 256, (v >>> 8) % 256, (v >>> 16) % 256, (v >>> 24) % 256]

/-- The buffer `out` with the block `b` written at index `idx`. -/
def splice (out : List Nat) (idx : Nat) (b : List Nat) : List Nat :=
  out.take idx ++ (b ++ out.drop (idx + b.length))

/-- The bytes one lacing run writes for a packet of `d` bytes: the loop's
255s and the final `byte(datalen)`. -/
def laceRun (d : Nat) : List Nat :=
  List.replicate ((d - 1) / 255) 255 ++ [d - 255 * ((d - 1) / 255)]

/-- The first 27 bytes `oggSplatHeader` leaves in the buffer: capture pattern,
version, flags, granule position, serial number, `psn` little-endian, the four
bytes `mid` of the checksum field (not written), and the segment count. -/
def pageHead (psn : Nat) (mid : List Nat) (count : Nat) : List Nat :=
  oggHeaderZero.take 18 ++ (le4 psn ++ (mid ++ [count]))

/-- The buffer `pre` after the checksum stamp. -/
def stamped (pre : List Nat) : List Nat :=
  pre.take 22 ++ (le4 (Checksum pre oggCrc32) ++ pre.drop 26)

/-- The page `encoderWriteBuf` assembles for a codec result `r` before the
stamp: the header, the first `(r + 254) / 255` bytes of the lacing run, the
first `r` bytes of the codec's output region. -/
def prePage (psn : Nat) (mid : List Nat) (r : Nat) (region : List Nat) : List Nat :=
  pageHead psn mid (byte (((r + 0xFE) / 0xFF : Nat) : Int))
    ++ ((laceRun r).take ((r + 0xFE) / 0xFF) ++ region.take r)

/-- The page `EncodeSilence` assembles before the stamp, for `n` copies of
`raw`: the header with a zero checksum field, `n` lacing runs, `n` copies of
the payload. -/
def silencePre (psn n : Nat) (raw : List Nat) : List Nat :=
  pageHead psn [0, 0, 0, 0] (byte ((n * ((raw.length + 0xFE) / 0xFF) : Nat) : Int))
    ++ ((List.replicate n (laceRun raw.length)).flatten ++ (List.replicate n raw).flatten)

/-! ## Silence synthesis -/

/-- The variable `srates = [...]int{2880, 1920, 960, 480, 240, 120}`. -/
def srates : List Int := [2880, 1920, 960, 480, 240, 120]

/-- The loop of `sampleSize` over the block sizes still to be tried, with the
fallback `srates[len(srates)-1]` when none fits. -/
def sampleSizeFrom : List Int → Int → Int
  | [], _ => srates.getD (srates.length - 1) 0
  | sr :: rest, dimsamples => if dimsamples ≥ sr then sr else sampleSizeFrom rest dimsamples

/-- The function `sampleSize(dimsamples)`. -/
def sampleSize (dimsamples : Int) : Int := sampleSizeFrom srates dimsamples

/-- What a call of `CreateSilence` does: it returns its pair of results (a
`*Silence`, nil being `none`, and an error) or it panics. -/
inductive SilenceOutcome where
  | returned (s : Option Silence) (err : Option String)
  | panicked (msg : String)
deriving DecidableEq

/-- The method `CreateSilence(d)`.  The floating-point product
`int(d.Seconds() * float64(e.SamplingRate))` is not embedded: `dinsamples` is
its value.  The codec call is represented by `c`, the bytes written into the
255-byte buffer `out` and the result `rc`.  The integer division of Go
truncates toward zero. -/
def CreateSilence (e : Encoder) (dinsamples : Int) (c : CodecCall) : SilenceOutcome :=
  let onen := sampleSize dinsamples
  if onen * e.cfg.Channels < 0 then .panicked "makeslice: len out of range"
  else if onen * e.cfg.Channels = 0 then .panicked "index out of range"
  else
    let out := codecWrite (List.replicate 0xFF 0) 0 c.data
    if c.rc < 0 then .returned none (some "Invalid encoding")
    else
      match slice out 0 c.rc.toNat with
      | none => .panicked "slice bounds out of range"
      | some out1 => .returned (some ⟨out1, dinsamples.tdiv onen⟩) none

/-! ## Descriptions in the specification's words -/

/-- The lacing values of a packet of `d` bytes as the specification words
them: 255 repeated while more than 255 remains, then the remainder.  The first
argument bounds the number of 255s; `d` is always enough. -/
def lacingValues : Nat → Nat → List Nat
  | 0, d => [d]
  | fuel + 1, d => if d > 255 then 255 :: lacingValues fuel (d - 255) else [d]

/-- A complete comment header with zero user comments, as the specification
words it: the eight bytes 'OpusTags', a 4-byte little-endian vendor-string
length `n`, exactly `n` vendor-string bytes, a 4-byte little-endian
user-comment count equal to 0, and nothing after it. -/
def isEmptyCommentHeader (p : List Nat) : Bool :=
  decide (p.take 8 = [79, 112, 117, 115, 84, 97, 103, 115])
    && decide (p.length = 8 + 4 + le32At p 8 + 4)
    && decide ((p.drop (8 + 4 + le32At p 8)).take 4 = [0, 0, 0, 0])

/-! # Lemmas -/

/-! ## The checksum stays within 32 bits -/

theorem tableStep_lt (poly crc : Nat) (hp : poly < 2 ^ 32) (hc : crc < 2 ^ 32) :
    tableStep poly crc < 2 ^ 32 := by
  have h1 : crc >>> 1 < 2 ^ 32 := by
    rw [Nat.shiftRight_eq_div_pow]
    exact lt_of_le_of_lt (Nat.div_le_self _ _) hc
  unfold tableStep
  split
  · exact Nat.xor_lt_two_pow h1 hp
  · exact h1

theorem tableEntry_lt (poly i : Nat) (hp : poly < 2 ^ 32) (hi : i < 2 ^ 32) :
    tableEntry poly i < 2 ^ 32 := by
  unfold tableEntry
  repeat apply tableStep_lt _ _ hp
  exact hi

theorem MakeTable_getD_lt (poly i : Nat) (hp : poly < 2 ^ 32) :
    (MakeTable poly).getD i 0 < 2 ^ 32 := by
  unfold MakeTable
  by_cases hi : i < 256
  · rw [List.getD_eq_getElem _ _ (by simpa using hi)]
    simp only [List.getElem_map, List.getElem_range]
    exact tableEntry_lt poly i hp (by omega)
  · rw [List.getD_eq_default _ _ (by simpa using hi)]
    decide

theorem updateByte_lt (crc v : Nat) (hc : crc < 2 ^ 32) :
    updateByte oggCrc32 crc v < 2 ^ 32 := by
  unfold updateByte oggCrc32
  apply Nat.xor_lt_two_pow (MakeTable_getD_lt _ _ (by decide))
  rw [Nat.shiftRight_eq_div_pow]
  exact lt_of_le_of_lt (Nat.div_le_self _ _) hc

theorem foldl_updateByte_lt (p : List Nat) (crc : Nat) (hc : crc < 2 ^ 32) :
    p.foldl (updateByte oggCrc32) crc < 2 ^ 32 := by
  induction p generalizing crc with
  | nil => simpa using hc
  | cons v p ih => exact ih _ (updateByte_lt crc v hc)

theorem Checksum_lt (data : List Nat) : Checksum data oggCrc32 < 2 ^ 32 := by
  unfold Checksum simpleUpdate
  exact Nat.xor_lt_two_pow (foldl_updateByte_lt _ _ (by decide)) (by decide)

/-! ## Little-endian fields and the checksum stamp -/

theorem putUint32_eq (a b c d : Nat) (t : List Nat) (v : Nat) :
    putUint32 (a :: b :: c :: d :: t) v = some (le4 v ++ t) := by
  simp [putUint32, le4]

theorem getD_append_add (pre l : List Nat) (k : Nat) :
    (pre ++ l).getD (pre.length + k) 0 = l.getD k 0 := by
  simp [List.getD_eq_getElem?_getD, List.getElem?_append_right]

theorem le32At_le4 (pre t : List Nat) (v : Nat) (hv : v < 2 ^ 32) :
    le32At (pre ++ (le4 v ++ t)) pre.length = v := by
  unfold le32At
  rw [getD_append_add, getD_append_add, getD_append_add]
  have h0 := getD_append_add pre (le4 v ++ t) 0
  rw [Nat.add_zero] at h0
  rw [h0]
  simp only [le4, List.cons_append, List.nil_append, List.getD_cons_zero, List.getD_cons_succ,
    Nat.shiftRight_eq_div_pow]
  omega

theorem exists_four (l : List Nat) (h : 4 ≤ l.length) :
    ∃ a b c d t, l = a :: b :: c :: d :: t := by
  match l, h with
  | a :: b :: c :: d :: t, _ => exact ⟨a, b, c, d, t, rfl⟩

/-- A list of length at least `n + 4` split at `n`: a prefix of length `n`,
four elements, the rest. -/
theorem split_four (bs : List Nat) (n : Nat) (h : n + 4 ≤ bs.length) :
    ∃ a b c d, bs = bs.take n ++ (a :: b :: c :: d :: bs.drop (n + 4)) ∧
      (bs.drop n).take 4 = [a, b, c, d] := by
  have hlen : 4 ≤ (bs.drop n).length := by rw [List.length_drop]; omega
  obtain ⟨a, b, c, d, t, hx⟩ := exists_four _ hlen
  have hd : bs.drop (n + 4) = t := by
    have : bs.drop (n + 4) = (bs.drop n).drop 4 := by
      rw [List.drop_drop, Nat.add_comm]
    rw [this, hx]; rfl
  refine ⟨a, b, c, d, ?_, by rw [hx]; rfl⟩
  rw [hd, ← hx, List.take_append_drop]

/-- The stamp: `oggChecksum` succeeds on every buffer of at least 26 bytes and
replaces bytes 22..25 by the little-endian checksum of the buffer as it was. -/
theorem oggChecksum_eq (bs : List Nat) (h : 26 ≤ bs.length) :
    oggChecksum bs
      = some (bs.take 22 ++ (le4 (Checksum bs oggCrc32) ++ bs.drop 26)) := by
  obtain ⟨a, b, c, d, hsplit, -⟩ := split_four bs 22 (by omega)
  have hdrop : bs.drop 22 = a :: b :: c :: d :: bs.drop 26 := by
    conv_lhs => rw [hsplit]
    rw [List.drop_left' (by simp; omega)]
  unfold oggChecksum onSliceFrom
  rw [if_pos (by omega)]
  simp only [hdrop, putUint32_eq, Option.map]

theorem oggChecksum_none (bs : List Nat) (h : bs.length < 26) :
    oggChecksum bs = none := by
  unfold oggChecksum onSliceFrom
  split
  · have : ¬ 3 < (bs.drop 22).length := by rw [List.length_drop]; omega
    simp only [putUint32, if_neg this, Option.map]
  · rfl

/-- Zeroing the checksum field of a stamped buffer whose field was zero
before the stamp gives the buffer back. -/
theorem zeroChecksumField_stamp (pre t : List Nat) (v : Nat) (hp : pre.length = 22) :
    zeroChecksumField (pre ++ (le4 v ++ t)) = pre ++ ([0, 0, 0, 0] ++ t) := by
  unfold zeroChecksumField le4
  have e22 : 22 = pre.length + 0 := by omega
  have e23 : 23 = pre.length + 1 := by omega
  have e24 : 24 = pre.length + 2 := by omega
  have e25 : 25 = pre.length + 3 := by omega
  rw [e22, List.set_append_right _ _ (by omega)]
  rw [e23, List.set_append_right _ _ (by omega)]
  rw [e24, List.set_append_right _ _ (by omega)]
  rw [e25, List.set_append_right _ _ (by omega)]
  simp

/-- The round trip of the stamp: when bytes 22..25 of `bs` are zero, the page
`oggChecksum` makes of it stores the checksum of itself with the field zeroed. -/
theorem stamp_roundtrip (bs page : List Nat) (h : 26 ≤ bs.length)
    (hz : (bs.drop 22).take 4 = [0, 0, 0, 0]) (hpage : oggChecksum bs = some page) :
    Checksum (zeroChecksumField page) oggCrc32 = le32At page 22 := by
  rw [oggChecksum_eq bs h] at hpage
  obtain ⟨a, b, c, d, hsplit, h4⟩ := split_four bs 22 (by omega)
  rw [hz] at h4
  injection h4 with ha h4; injection h4 with hb h4; injection h4 with hc h4
  injection h4 with hd _
  subst ha hb hc hd
  have hlen : (bs.take 22).length = 22 := by simp; omega
  injection hpage with hpage
  subst hpage
  rw [zeroChecksumField_stamp _ _ _ hlen]
  have h22 : le32At (bs.take 22 ++ (le4 (Checksum bs oggCrc32) ++ bs.drop 26)) 22
      = Checksum bs oggCrc32 := by
    have := le32At_le4 (bs.take 22) (bs.drop 26) _ (Checksum_lt bs)
    rwa [hlen] at this
  rw [h22]
  congr 1
  exact hsplit.symm

/-! ## Writing a block into a buffer -/

theorem splice_nil (out : List Nat) (idx : Nat) : splice out idx [] = out := by
  simp [splice]

theorem length_splice (out : List Nat) (idx : Nat) (b : List Nat)
    (h : idx + b.length ≤ out.length) : (splice out idx b).length = out.length := by
  simp only [splice, List.length_append, List.length_take, List.length_drop]
  omega

theorem splice_splice (out : List Nat) (idx : Nat) (b c : List Nat)
    (h : idx + b.length + c.length ≤ out.length) :
    splice (splice out idx b) (idx + b.length) c = splice out idx (b ++ c) := by
  have hl : (out.take idx ++ b).length = idx + b.length := by
    simp only [List.length_append, List.length_take]; omega
  have e : splice out idx b = (out.take idx ++ b) ++ out.drop (idx + b.length) := by
    simp [splice]
  have h1 : (splice out idx b).take (idx + b.length) = out.take idx ++ b := by
    rw [e]; exact List.take_left' hl
  have h2 : (splice out idx b).drop (idx + b.length + c.length)
      = out.drop (idx + (b ++ c).length) := by
    rw [e, ← hl, List.drop_append, List.drop_drop, hl, List.length_append]
    congr 1; omega
  unfold splice at h1 h2 ⊢
  rw [h1, h2]
  simp

theorem setIdx_eq_splice (out : List Nat) (idx v : Nat) (h : idx < out.length) :
    setIdx out idx v = some (splice out idx [v]) := by
  unfold setIdx splice
  rw [if_pos h, List.set_eq_take_append_cons_drop, if_pos h]
  rfl

theorem setIdx_none (out : List Nat) (idx v : Nat) (h : out.length ≤ idx) :
    setIdx out idx v = none := by
  unfold setIdx
  rw [if_neg (by omega)]

theorem copy_eq_splice (out : List Nat) (idx : Nat) (raw : List Nat)
    (h : idx + raw.length ≤ out.length) :
    onSliceFrom out idx (fun dst => some (copy dst raw)) = some (splice out idx raw) := by
  unfold onSliceFrom copy splice
  rw [if_pos (by omega)]
  have h1 : raw.take (out.drop idx).length = raw := by
    apply List.take_of_length_le
    rw [List.length_drop]; omega
  simp only [Option.map, h1, List.drop_drop]

/-- The lacing loop with enough iterations allowed and enough room in the
buffer: it writes `(d - 1) / 255` bytes 255 from `idx` on and leaves
`d - 255 * ((d - 1) / 255)` to be written as the final lacing value. -/
theorem lacingLoop_eq (fuel : Nat) (out : List Nat) (idx d : Nat)
    (hf : (d - 1) / 255 ≤ fuel) (hlen : idx + (d - 1) / 255 ≤ out.length) :
    lacingLoop fuel out idx d
      = some (splice out idx (List.replicate ((d - 1) / 255) 255),
          idx + (d - 1) / 255, d - 255 * ((d - 1) / 255)) := by
  induction fuel generalizing out idx d with
  | zero =>
    have h0 : (d - 1) / 255 = 0 := by omega
    simp [lacingLoop, h0, splice_nil]
  | succ fuel ih =>
    unfold lacingLoop
    by_cases hd : d > 0xFF
    · rw [if_pos hd]
      have hn : (d - 1) / 255 = (d - 0xFF - 1) / 255 + 1 := by omega
      have hidx : idx < out.length := by omega
      rw [setIdx_eq_splice out idx 0xFF hidx]
      simp only []
      have hl1 : (splice out idx [0xFF]).length = out.length :=
        length_splice _ _ _ (by simpa using hidx)
      rw [ih (splice out idx [0xFF]) (idx + 1) (d - 0xFF) (by omega) (by omega)]
      have hs := splice_splice out idx [0xFF] (List.replicate ((d - 0xFF - 1) / 255) 255)
        (by simp; omega)
      simp only [List.length_singleton] at hs
      rw [hs, hn]
      simp only [List.replicate_succ, List.singleton_append]
      have e1 : idx + 1 + (d - 255 - 1) / 255 = idx + ((d - 255 - 1) / 255 + 1) := by omega
      have e2 : d - 255 - 255 * ((d - 255 - 1) / 255)
          = d - 255 * ((d - 255 - 1) / 255 + 1) := by omega
      rw [e1, e2]
    · rw [if_neg hd]
      have h0 : (d - 1) / 255 = 0 := by omega
      simp [h0, splice_nil]

/-- The lacing loop never shortens the buffer and never moves the index
back. -/
theorem lacingLoop_inv (fuel : Nat) (out : List Nat) (idx d : Nat)
    (out1 : List Nat) (i r : Nat) (h : lacingLoop fuel out idx d = some (out1, i, r)) :
    out1.length = out.length ∧ idx ≤ i := by
  induction fuel generalizing out idx d with
  | zero =>
    simp only [lacingLoop, Option.some.injEq, Prod.mk.injEq] at h
    obtain ⟨rfl, rfl, -⟩ := h
    exact ⟨rfl, le_rfl⟩
  | succ fuel ih =>
    unfold lacingLoop at h
    by_cases hd : d > 0xFF
    · rw [if_pos hd] at h
      by_cases hidx : idx < out.length
      · rw [setIdx_eq_splice out idx 0xFF hidx] at h
        simp only [] at h
        have := ih _ _ _ h
        rw [length_splice _ _ _ (by simpa using hidx)] at this
        exact ⟨this.1, by omega⟩
      · rw [setIdx_none out idx 0xFF (by omega)] at h
        simp at h
    · rw [if_neg hd] at h
      simp only [Option.some.injEq, Prod.mk.injEq] at h
      obtain ⟨rfl, rfl, -⟩ := h
      exact ⟨rfl, le_rfl⟩

theorem laceRun_length (d : Nat) : (laceRun d).length = (d - 1) / 255 + 1 := by
  simp [laceRun]

theorem laceRun_sum (d : Nat) : (laceRun d).sum = d := by
  simp only [laceRun, List.sum_append, List.sum_replicate, List.sum_cons, List.sum_nil,
    smul_eq_mul]
  omega

theorem byte_rest (d : Nat) :
    byte ((d - 255 * ((d - 1) / 255) : Nat) : Int) = d - 255 * ((d - 1) / 255) := by
  unfold byte
  omega

/-- The bound on the iterations of the lacing loop does not matter once it is
at least `(d - 1) / 255`: the loop has left by its own condition. -/
theorem lacingLoop_fuel_irrelevant (f1 f2 : Nat) (out : List Nat) (idx d : Nat)
    (h1 : (d - 1) / 255 ≤ f1) (h2 : (d - 1) / 255 ≤ f2) :
    lacingLoop f1 out idx d = lacingLoop f2 out idx d := by
  induction f1 generalizing f2 out idx d with
  | zero =>
    have hd : ¬ d > 0xFF := by omega
    cases f2 with
    | zero => rfl
    | succ f2 => simp only [lacingLoop, if_neg hd]
  | succ f1 ih =>
    cases f2 with
    | zero =>
      have hd : ¬ d > 0xFF := by omega
      simp only [lacingLoop, if_neg hd]
    | succ f2 =>
      unfold lacingLoop
      by_cases hd : d > 0xFF
      · rw [if_pos hd, if_pos hd]
        cases setIdx out idx 0xFF with
        | none => rfl
        | some out1 => exact ih f2 out1 (idx + 1) (d - 0xFF) (by omega) (by omega)
      · rw [if_neg hd, if_neg hd]

/-- The bound `datalen` that `oggSplatHeader` and `EncodeSilence` pass to the
lacing loop is enough: any larger bound gives the same result. -/
theorem lacingLoop_fuel (fuel : Nat) (out : List Nat) (idx d : Nat) (h : d ≤ fuel) :
    lacingLoop fuel out idx d = lacingLoop d out idx d :=
  lacingLoop_fuel_irrelevant fuel d out idx d (by omega) (by omega)

/-- When the lacing loop ends with enough iterations allowed, at most 255
bytes remain for the final lacing value. -/
theorem lacingLoop_exit (fuel : Nat) (out : List Nat) (idx d : Nat)
    (out1 : List Nat) (i r : Nat) (hf : (d - 1) / 255 ≤ fuel)
    (h : lacingLoop fuel out idx d = some (out1, i, r)) : r ≤ 0xFF := by
  induction fuel generalizing out idx d with
  | zero =>
    simp only [lacingLoop, Option.some.injEq, Prod.mk.injEq] at h
    obtain ⟨-, -, rfl⟩ := h
    omega
  | succ fuel ih =>
    unfold lacingLoop at h
    by_cases hd : d > 0xFF
    · rw [if_pos hd] at h
      cases hs : setIdx out idx 0xFF with
      | none => rw [hs] at h; cases h
      | some o =>
        rw [hs] at h
        exact ih o (idx + 1) (d - 0xFF) (by omega) h
    · rw [if_neg hd] at h
      simp only [Option.some.injEq, Prod.mk.injEq] at h
      obtain ⟨-, -, rfl⟩ := h
      omega

/-! ## The header writer -/

theorem exists_five (l : List Nat) (h : 5 ≤ l.length) :
    ∃ a b c d x t, l = a :: b :: c :: d :: x :: t := by
  match l, h with
  | a :: b :: c :: d :: x :: t, _ => exact ⟨a, b, c, d, x, t, rfl⟩

theorem splice_append_left (p t : List Nat) (b : List Nat) :
    splice (p ++ t) p.length b = p ++ (b ++ t.drop b.length) := by
  unfold splice
  rw [List.take_left' rfl, List.drop_append]

/-- What `oggSplatHeader` does to a buffer with room for the header and the
lacing run: 27 header bytes, the lacing run for `d`, the rest untouched. -/
theorem oggSplatHeader_eq (out : List Nat) (psn d : Nat)
    (h : 28 + (d - 1) / 255 ≤ out.length) :
    oggSplatHeader out psn d
      = some (pageHead psn ((out.drop 22).take 4) (byte (((d + 0xFE) / 0xFF : Nat) : Int))
          ++ (laceRun d ++ out.drop (28 + (d - 1) / 255))) := by
  have hl : 5 ≤ (out.drop 22).length := by rw [List.length_drop]; omega
  obtain ⟨m0, m1, m2, m3, x, t, hx⟩ := exists_five _ hl
  have ht : out.drop (28 + (d - 1) / 255) = t.drop ((d - 1) / 255 + 1) := by
    have : out.drop (28 + (d - 1) / 255) = (out.drop 22).drop (6 + (d - 1) / 255) := by
      rw [List.drop_drop]; congr 1; omega
    rw [this, hx]
    have e : 6 + (d - 1) / 255 = ((d - 1) / 255 + 1) + 5 := by omega
    rw [e]
    rfl
  have htl : t.length + 27 = out.length := by
    have := congrArg List.length hx
    rw [List.length_drop] at this
    simp only [List.length_cons] at this
    omega
  have hcopy : copy out oggHeaderZero = oggHeaderZero ++ (m0 :: m1 :: m2 :: m3 :: x :: t) := by
    unfold copy
    rw [List.take_of_length_le (by simp [oggHeaderZero]; omega)]
    have : oggHeaderZero.length = 22 := rfl
    rw [this, hx]
  set c := byte (((d + 0xFE) / 0xFF : Nat) : Int) with hc
  have h2 : ∃ p : List Nat, p.length = 27 ∧
      p = pageHead psn [m0, m1, m2, m3] c ∧
      oggSplatHeader out psn d
        = (match lacingLoop d (p ++ t) 27 d with
          | none => none
          | some (out3, i, rest) => setIdx out3 i (byte (rest : Int))) := by
    refine ⟨pageHead psn [m0, m1, m2, m3] c, rfl, rfl, ?_⟩
    unfold oggSplatHeader
    simp only [hcopy]
    rw [← hc]
    simp [oggHeaderZero, onSliceFrom, putUint32, setIdx, pageHead, le4]
  obtain ⟨p, hp, hpe, hrun⟩ := h2
  rw [hrun, lacingLoop_eq d (p ++ t) 27 d (by omega) (by simp; omega)]
  simp only []
  have hl3 : (splice (p ++ t) 27 (List.replicate ((d - 1) / 255) 255)).length
      = (p ++ t).length := length_splice _ _ _ (by simp; omega)
  rw [setIdx_eq_splice _ _ _ (by rw [hl3]; simp; omega)]
  have hs := splice_splice (p ++ t) 27 (List.replicate ((d - 1) / 255) 255)
    [byte ((d - 255 * ((d - 1) / 255) : Nat) : Int)] (by simp; omega)
  simp only [List.length_replicate] at hs
  rw [hs, byte_rest]
  have hsp := splice_append_left p t (laceRun d)
  rw [hp] at hsp
  unfold laceRun at hsp ⊢
  rw [hsp, hx, ht, hpe]
  simp

/-! ## The pages of `encoderWriteBuf` -/

theorem pageHead_length (psn : Nat) (mid : List Nat) (c : Nat) :
    (pageHead psn mid c).length = 23 + mid.length := by
  simp [pageHead, oggHeaderZero, le4]
  omega

theorem slice_append (a b : List Nat) (hi : Nat) (h1 : a.length ≤ hi)
    (h2 : hi ≤ (a ++ b).length) :
    slice (a ++ b) a.length hi = some (b.take (hi - a.length)) := by
  unfold slice
  rw [if_pos ⟨h1, h2⟩, List.take_append_eq_append_take, List.take_of_length_le h1,
    List.drop_left' rfl]

theorem mid_length (out : List Nat) (h : 26 ≤ out.length) :
    ((out.drop 22).take 4).length = 4 := by
  rw [List.length_take, List.length_drop]; omega

/-- In Ogg framing, for a codec result `0 ≤ rc ≤ 3584` and a 4096-byte
buffer, `encoderWriteBuf` returns the stamped page and counts it. -/
theorem encoderWriteBuf_ogg (e : Encoder) (all : List Nat) (rc : Int)
    (hf : e.cfg.Framing = FRAMING_OGG) (hall : all.length = 4096)
    (h0 : 0 ≤ rc) (h1 : rc ≤ 3584) :
    encoderWriteBuf e all rc
      = (.returned (stamped (prePage e.psn
            ((all.drop (oggBufFrameOffset - (27 + (rc.toNat + 0xFE) / 0xFF) + 22)).take 4)
            rc.toNat (all.drop oggBufFrameOffset))) none,
         { e with psn := (e.psn + 1) % 2 ^ 32 }) := by
  lift rc to Nat using h0 with r
  have hr : r ≤ 3584 := by omega
  simp only [Int.toNat_ofNat]
  have hne : ¬ e.cfg.Framing = FRAMING_NONE := by rw [hf]; decide
  have hneg : ¬ ((r : Int) < 0) := by omega
  unfold encoderWriteBuf
  simp only [Int.toNat_ofNat]
  rw [if_neg hneg, if_neg hne, if_pos hf]
  have hc : (r + 0xFE) / 0xFF ≤ 15 := by omega
  have hh : ¬ (27 + (r + 0xFE) / 0xFF > oggBufFrameOffset) := by
    unfold oggBufFrameOffset; omega
  rw [if_neg hh]
  generalize hoff : oggBufFrameOffset - (27 + (r + 0xFE) / 0xFF) = hoffv
  have hoff2 : hoffv + (27 + (r + 0xFE) / 0xFF) = 512 := by
    unfold oggBufFrameOffset at hoff; omega
  have hdl : (all.drop hoffv).length = 4096 - hoffv := by rw [List.length_drop, hall]
  have hsplat := oggSplatHeader_eq (all.drop hoffv) e.psn r (by rw [hdl]; omega)
  have hmid : (all.drop hoffv).drop 22 = all.drop (hoffv + 22) := by
    rw [List.drop_drop]
  have hrest : (all.drop hoffv).drop (28 + (r - 1) / 255) = all.drop (hoffv + (28 + (r - 1) / 255)) := by
    rw [List.drop_drop]
  rw [hmid, hrest] at hsplat
  have hon : onSliceFrom all hoffv (fun out => oggSplatHeader out e.psn r)
      = some (all.take hoffv ++ (pageHead e.psn ((all.drop (hoffv + 22)).take 4)
          (byte (((r + 0xFE) / 0xFF : Nat) : Int))
          ++ (laceRun r ++ all.drop (hoffv + (28 + (r - 1) / 255))))) := by
    unfold onSliceFrom
    rw [if_pos (by omega)]
    simp only [hsplat, Option.map]
  rw [hon]
  simp only []
  have htl : (all.take hoffv).length = hoffv := by rw [List.length_take, hall]; omega
  have hml : ((all.drop (hoffv + 22)).take 4).length = 4 := by
    rw [List.length_take, List.length_drop, hall]; omega
  have hphl := pageHead_length e.psn ((all.drop (hoffv + 22)).take 4)
    (byte (((r + 0xFE) / 0xFF : Nat) : Int))
  rw [hml] at hphl
  have hsl := slice_append (all.take hoffv)
    (pageHead e.psn ((all.drop (hoffv + 22)).take 4) (byte (((r + 0xFE) / 0xFF : Nat) : Int))
          ++ (laceRun r ++ all.drop (hoffv + (28 + (r - 1) / 255))))
    (oggBufFrameOffset + r) (by rw [htl]; unfold oggBufFrameOffset; omega)
    (by
      simp only [List.length_append, htl, hphl, laceRun_length, List.length_drop, hall]
      unfold oggBufFrameOffset; omega)
  rw [htl] at hsl
  rw [hsl]
  simp only []
  have hpre : (pageHead e.psn ((all.drop (hoffv + 22)).take 4)
        (byte (((r + 0xFE) / 0xFF : Nat) : Int))
          ++ (laceRun r ++ all.drop (hoffv + (28 + (r - 1) / 255)))).take
            (oggBufFrameOffset + r - hoffv)
      = prePage e.psn ((all.drop (hoffv + 22)).take 4) r (all.drop oggBufFrameOffset) := by
    unfold prePage
    rcases Nat.eq_zero_or_pos r with hr0 | hrpos
    · subst hr0
      have : oggBufFrameOffset + 0 - hoffv = 27 := by unfold oggBufFrameOffset; omega
      rw [this, List.take_left' hphl]
      simp
    · have hcl : (r + 0xFE) / 0xFF = (r - 1) / 255 + 1 := by omega
      have hk : oggBufFrameOffset + r - hoffv
          = (pageHead e.psn ((all.drop (hoffv + 22)).take 4)
              (byte (((r + 0xFE) / 0xFF : Nat) : Int)) ++ laceRun r).length + r := by
        rw [List.length_append, hphl, laceRun_length]
        unfold oggBufFrameOffset; omega
      have hd : hoffv + (28 + (r - 1) / 255) = oggBufFrameOffset := by
        unfold oggBufFrameOffset; omega
      rw [hk, hd, ← List.append_assoc, List.take_append,
        List.take_of_length_le (l := laceRun r) (by rw [laceRun_length]; omega),
        List.append_assoc]
  rw [hpre]
  have hpl : 26 ≤ (prePage e.psn ((all.drop (hoffv + 22)).take 4) r
      (all.drop oggBufFrameOffset)).length := by
    unfold prePage
    rw [List.length_append, hphl]; omega
  rw [oggChecksum_eq _ hpl]
  rfl

/-! ## The page of `EncodeSilence` -/

/-- One lacing run, loop and final write, is a single block write. -/
theorem lacingRun_eq (out : List Nat) (idx d : Nat)
    (hlen : idx + (d - 1) / 255 + 1 ≤ out.length) :
    ∃ i r, lacingLoop d out idx d = some (splice out idx (List.replicate ((d - 1) / 255) 255), i, r)
      ∧ i = idx + (d - 1) / 255
      ∧ setIdx (splice out idx (List.replicate ((d - 1) / 255) 255)) i (byte (r : Int))
          = some (splice out idx (laceRun d)) := by
  refine ⟨idx + (d - 1) / 255, d - 255 * ((d - 1) / 255),
    lacingLoop_eq d out idx d (by omega) (by omega), rfl, ?_⟩
  have hl3 : (splice out idx (List.replicate ((d - 1) / 255) 255)).length = out.length :=
    length_splice _ _ _ (by simp; omega)
  rw [setIdx_eq_splice _ _ _ (by rw [hl3]; omega)]
  have hs := splice_splice out idx (List.replicate ((d - 1) / 255) 255)
    [byte ((d - 255 * ((d - 1) / 255) : Nat) : Int)] (by simp; omega)
  simp only [List.length_replicate] at hs
  rw [hs, byte_rest]
  rfl

theorem silenceLacing_eq (n rawlen : Nat) (out : List Nat) (idx : Nat)
    (hlen : idx + n * ((rawlen - 1) / 255 + 1) ≤ out.length) :
    silenceLacing n rawlen out idx
      = some (splice out idx (List.replicate n (laceRun rawlen)).flatten,
          idx + n * ((rawlen - 1) / 255 + 1)) := by
  induction n generalizing out idx with
  | zero => simp [silenceLacing, splice_nil]
  | succ n ih =>
    have hmul : (n + 1) * ((rawlen - 1) / 255 + 1)
        = n * ((rawlen - 1) / 255 + 1) + ((rawlen - 1) / 255 + 1) := Nat.succ_mul _ _
    rw [hmul] at hlen ⊢
    obtain ⟨i, r, hloop, hi, hset⟩ := lacingRun_eq out idx rawlen (by omega)
    unfold silenceLacing
    rw [hloop]
    simp only [hset]
    have hl1 : (splice out idx (laceRun rawlen)).length = out.length :=
      length_splice _ _ _ (by rw [laceRun_length]; omega)
    rw [hi, ih _ _ (by rw [hl1]; omega)]
    have hs := splice_splice out idx (laceRun rawlen)
      (List.replicate n (laceRun rawlen)).flatten
      (by
        simp only [laceRun_length, List.length_flatten, List.map_replicate, List.sum_replicate,
          smul_eq_mul]
        omega)
    rw [laceRun_length] at hs
    have e1 : idx + (rawlen - 1) / 255 + 1 = idx + ((rawlen - 1) / 255 + 1) := by omega
    rw [e1, hs]
    simp only [List.replicate_succ, List.flatten_cons]
    congr 2
    omega

theorem silenceCopy_eq (n : Nat) (raw out : List Nat) (idx : Nat)
    (hlen : idx + n * raw.length ≤ out.length) :
    silenceCopy n raw out idx
      = some (splice out idx (List.replicate n raw).flatten, idx + n * raw.length) := by
  induction n generalizing out idx with
  | zero => simp [silenceCopy, splice_nil]
  | succ n ih =>
    have hmul : (n + 1) * raw.length = n * raw.length + raw.length := Nat.succ_mul _ _
    rw [hmul] at hlen ⊢
    unfold silenceCopy
    rw [copy_eq_splice out idx raw (by omega)]
    simp only []
    have hl1 : (splice out idx raw).length = out.length := length_splice _ _ _ (by omega)
    rw [ih _ _ (by rw [hl1]; omega)]
    have hs := splice_splice out idx raw (List.replicate n raw).flatten
      (by
        simp only [List.length_flatten, List.map_replicate, List.sum_replicate, smul_eq_mul]
        omega)
    rw [hs]
    simp only [List.replicate_succ, List.flatten_cons]
    congr 2
    omega

theorem EncodeSilence_ok (e : Encoder) (s : Silence) (hn : 1 ≤ s.ntimes)
    (hL : 1 ≤ s.raw.length) :
    EncodeSilence e s
      = (.returned (stamped (silencePre e.psn s.ntimes.toNat s.raw)) none,
         { e with psn := (e.psn + 1) % 2 ^ 32 }) := by
  obtain ⟨raw, nt⟩ := s
  simp only at hn hL ⊢
  lift nt to Nat using (by omega) with n
  have hn1 : 1 ≤ n := by omega
  have hk : (raw.length + 0xFE) / 0xFF = (raw.length - 1) / 255 + 1 := by omega
  have hcast : ((raw.length : Int) + 0xFE) / 0xFF = (((raw.length + 0xFE) / 0xFF : Nat) : Int) := by
    omega
  unfold EncodeSilence
  simp only [Int.toNat_ofNat]
  rw [hcast]
  generalize hK : (raw.length + 0xFE) / 0xFF = K at hk ⊢
  have hsize : (27 : Int) + (n : Int) * (K : Int) + (n : Int) * (raw.length : Int)
      = ((27 + n * K + n * raw.length : Nat) : Int) := by push_cast; ring
  have hb : (27 : Int) + (n : Int) * (K : Int) - 27 = ((n * K : Nat) : Int) := by
    push_cast; ring
  rw [hsize, hb, if_neg (by omega), Int.toNat_ofNat]
  have hnK : 1 ≤ n * K := by
    have : 1 ≤ K := by omega
    exact Nat.mul_pos hn1 this
  have hnL : 1 ≤ n * raw.length := Nat.mul_pos hn1 hL
  -- the header
  have hsplat := oggSplatHeader_eq (List.replicate (27 + n * K + n * raw.length) 0) e.psn 0
    (by simp; omega)
  have hmid : ((List.replicate (27 + n * K + n * raw.length) 0).drop 22).take 4
      = [0, 0, 0, 0] := by
    rw [List.drop_replicate, List.take_replicate]
    have : min 4 (27 + n * K + n * raw.length - 22) = 4 := by omega
    rw [this]; rfl
  have hrest : (List.replicate (27 + n * K + n * raw.length) 0).drop (28 + (0 - 1) / 255)
      = List.replicate (n * K + n * raw.length - 1) 0 := by
    rw [List.drop_replicate]; congr 1; omega
  rw [hmid, hrest] at hsplat
  rw [hsplat]
  simp only []
  have hset : setIdx (pageHead e.psn [0, 0, 0, 0] (byte ((((0 + 0xFE) / 0xFF : Nat)) : Int))
        ++ (laceRun 0 ++ List.replicate (n * K + n * raw.length - 1) 0)) 26
        (byte ((n * K : Nat) : Int))
      = some (pageHead e.psn [0, 0, 0, 0] (byte ((n * K : Nat) : Int))
          ++ List.replicate (n * K + n * raw.length) 0) := by
    have hz : List.replicate (n * K + n * raw.length) 0
        = 0 :: List.replicate (n * K + n * raw.length - 1) 0 := by
      have : n * K + n * raw.length = (n * K + n * raw.length - 1) + 1 := by omega
      conv_lhs => rw [this]
      rfl
    rw [hz]
    simp [setIdx, pageHead, oggHeaderZero, le4, laceRun]
  rw [hset]
  simp only []
  have hpl : (pageHead e.psn [0, 0, 0, 0] (byte ((n * K : Nat) : Int))).length = 27 := rfl
  rw [silenceLacing_eq n raw.length _ 27 (by
    rw [List.length_append, hpl, List.length_replicate, ← hk]
    omega)]
  simp only []
  have hfl : (List.replicate n (laceRun raw.length)).flatten.length = n * K := by
    simp only [List.length_flatten, List.map_replicate, List.sum_replicate, laceRun_length,
      smul_eq_mul, hk]
  have hsp := splice_append_left (pageHead e.psn [0, 0, 0, 0] (byte ((n * K : Nat) : Int)))
    (List.replicate (n * K + n * raw.length) 0) (List.replicate n (laceRun raw.length)).flatten
  rw [hpl, hfl, List.drop_replicate] at hsp
  have e1 : n * K + n * raw.length - n * K = n * raw.length := by omega
  rw [e1] at hsp
  rw [hsp, ← hk]
  have hcl : (List.replicate n raw).flatten.length = n * raw.length := by
    simp only [List.length_flatten, List.map_replicate, List.sum_replicate, smul_eq_mul]
  have hl3 : (pageHead e.psn [0, 0, 0, 0] (byte ((n * K : Nat) : Int))
      ++ (List.replicate n (laceRun raw.length)).flatten).length = 27 + n * K := by
    rw [List.length_append, hpl, hfl]
  rw [← List.append_assoc]
  rw [silenceCopy_eq n raw _ (27 + n * K) (by
    rw [List.length_append, hl3, List.length_replicate])]
  simp only []
  have hsp2 := splice_append_left (pageHead e.psn [0, 0, 0, 0] (byte ((n * K : Nat) : Int))
      ++ (List.replicate n (laceRun raw.length)).flatten)
    (List.replicate (n * raw.length) 0) (List.replicate n raw).flatten
  rw [hl3, hcl, List.drop_replicate, Nat.sub_self] at hsp2
  rw [hsp2]
  have hpre : pageHead e.psn [0, 0, 0, 0] (byte ((n * K : Nat) : Int))
        ++ (List.replicate n (laceRun raw.length)).flatten
        ++ ((List.replicate n raw).flatten ++ List.replicate 0 0)
      = silencePre e.psn n raw := by
    unfold silencePre
    rw [hK]
    simp
  rw [hpre]
  have h26 : 26 ≤ (silencePre e.psn n raw).length := by
    rw [← hpre]
    simp only [List.length_append, hl3]
    omega
  rw [oggChecksum_eq _ h26]
  rfl

theorem copy_length (dst src : List Nat) : (copy dst src).length = dst.length := by
  simp only [copy, List.length_append, List.length_take, List.length_drop]
  omega

theorem setIdx_some (out : List Nat) (i v : Nat) (out1 : List Nat)
    (h : setIdx out i v = some out1) : i < out.length ∧ out1.length = out.length := by
  unfold setIdx at h
  split at h
  · injection h with h
    subst h
    exact ⟨by assumption, List.length_set _ _ _⟩
  · cases h

theorem putUint32_some (b : List Nat) (v : Nat) (b1 : List Nat)
    (h : putUint32 b v = some b1) : b1.length = b.length := by
  unfold putUint32 at h
  split at h
  · injection h with h
    subst h
    simp
  · cases h

theorem onSliceFrom_some (out : List Nat) (k : Nat) (f : List Nat → Option (List Nat))
    (hf : ∀ b b1, f b = some b1 → b1.length = b.length) (out1 : List Nat)
    (h : onSliceFrom out k f = some out1) : out1.length = out.length := by
  unfold onSliceFrom at h
  split at h
  · cases hfb : f (out.drop k) with
    | none => rw [hfb] at h; cases h
    | some t =>
      rw [hfb] at h
      simp only [Option.map, Option.some.injEq] at h
      subst h
      have := hf _ _ hfb
      rw [List.length_append, this, List.length_take, List.length_drop]
      omega
  · cases h

/-- The header writer needs a buffer of at least 28 bytes: its last write goes
to an index of at least 27. -/
theorem oggSplatHeader_some_length (out : List Nat) (psn d : Nat) (out1 : List Nat)
    (h : oggSplatHeader out psn d = some out1) : 28 ≤ out.length := by
  unfold oggSplatHeader at h
  simp only [] at h
  cases h1 : onSliceFrom (copy out oggHeaderZero) 18 (fun b => putUint32 b psn) with
  | none => rw [h1] at h; cases h
  | some o1 =>
    rw [h1] at h
    simp only [] at h
    have l1 := onSliceFrom_some _ _ _ (fun b b1 hb => putUint32_some b psn b1 hb) _ h1
    rw [copy_length] at l1
    cases h2 : setIdx o1 26 (byte (((d + 0xFE) / 0xFF : Nat) : Int)) with
    | none => rw [h2] at h; cases h
    | some o2 =>
      rw [h2] at h
      simp only [] at h
      have l2 := (setIdx_some _ _ _ _ h2).2
      cases h3 : lacingLoop d o2 27 d with
      | none => rw [h3] at h; cases h
      | some res =>
        obtain ⟨o3, i, r⟩ := res
        rw [h3] at h
        simp only [] at h
        have l3 := lacingLoop_inv _ _ _ _ _ _ _ h3
        have l4 := (setIdx_some _ _ _ _ h).1
        omega

theorem oggSplatHeader_none (out : List Nat) (psn d : Nat) (h : out.length < 28) :
    oggSplatHeader out psn d = none := by
  cases hs : oggSplatHeader out psn d with
  | none => rfl
  | some o =>
    have := oggSplatHeader_some_length out psn d o hs
    omega

/-- With a repeat count below 1 or an empty payload `EncodeSilence` panics
before it counts the page. -/
theorem EncodeSilence_panics (e : Encoder) (s : Silence)
    (h : s.ntimes < 1 ∨ s.raw.length = 0) :
    ∃ msg, EncodeSilence e s = (.panicked msg, e) := by
  obtain ⟨raw, nt⟩ := s
  simp only at h
  unfold EncodeSilence
  simp only []
  have hsz : 27 + nt * (((raw.length : Int) + 0xFE) / 0xFF) + nt * (raw.length : Int) ≤ 27 := by
    rcases h with h | h
    · have hK : 0 ≤ ((raw.length : Int) + 0xFE) / 0xFF := by omega
      have hL : (0 : Int) ≤ (raw.length : Int) := by omega
      have hnt : nt ≤ 0 := by omega
      have h1 := Int.mul_nonpos_of_nonpos_of_nonneg hnt hK
      have h2 := Int.mul_nonpos_of_nonpos_of_nonneg hnt hL
      omega
    · rw [h]; simp
  split
  · exact ⟨_, rfl⟩
  · rw [oggSplatHeader_none _ _ _ (by rw [List.length_replicate]; omega)]
    exact ⟨_, rfl⟩

/-! ## Reading the pages -/

theorem stamped_roundtrip (pre : List Nat) (h : 26 ≤ pre.length)
    (hz : (pre.drop 22).take 4 = [0, 0, 0, 0]) :
    Checksum (zeroChecksumField (stamped pre)) oggCrc32 = le32At (stamped pre) 22 :=
  stamp_roundtrip pre (stamped pre) h hz (oggChecksum_eq pre h)

/-- A stamped page that starts with a `pageHead`, written out. -/
theorem stamped_pageHead (psn : Nat) (mid : List Nat) (c : Nat) (rest : List Nat)
    (hm : mid.length = 4) :
    stamped (pageHead psn mid c ++ rest)
      = oggHeaderZero.take 18 ++ (le4 psn
          ++ (le4 (Checksum (pageHead psn mid c ++ rest) oggCrc32) ++ (c :: rest))) := by
  obtain ⟨m0, m1, m2, m3, t, rfl⟩ := exists_four mid (by omega)
  have ht : t = [] := by
    simp only [List.length_cons] at hm
    exact List.length_eq_zero.mp (by omega)
  subst ht
  generalize hv : Checksum (pageHead psn [m0, m1, m2, m3] c ++ rest) oggCrc32 = v
  unfold stamped
  rw [hv]
  simp [pageHead, oggHeaderZero, le4]

theorem pageHead_mid_zero (psn c : Nat) (rest : List Nat) :
    ((pageHead psn [0, 0, 0, 0] c ++ rest).drop 22).take 4 = [0, 0, 0, 0] := by
  simp [pageHead, oggHeaderZero, le4]

theorem stamped_length (pre : List Nat) (h : 26 ≤ pre.length) :
    (stamped pre).length = pre.length := by
  simp only [stamped, le4, List.length_append, List.length_take, List.length_drop,
    List.length_cons, List.length_nil]
  omega

theorem le32At_18 (psn : Nat) (x : List Nat) (hp : psn < 2 ^ 32) :
    le32At (oggHeaderZero.take 18 ++ (le4 psn ++ x)) 18 = psn :=
  le32At_le4 (oggHeaderZero.take 18) x psn hp

/-- The page-sequence field, the segment count, and what follows the count in
a stamped page that starts with a `pageHead`. -/
theorem stamped_pageHead_fields (psn : Nat) (mid : List Nat) (c : Nat) (rest : List Nat)
    (hm : mid.length = 4) :
    (psn < 2 ^ 32 → le32At (stamped (pageHead psn mid c ++ rest)) 18 = psn)
      ∧ (stamped (pageHead psn mid c ++ rest)).getD 26 0 = c
      ∧ (stamped (pageHead psn mid c ++ rest)).drop 27 = rest := by
  rw [stamped_pageHead psn mid c rest hm]
  refine ⟨fun hp => le32At_18 psn _ hp, ?_, ?_⟩
  · simp [oggHeaderZero, le4]
  · simp [oggHeaderZero, le4]

theorem byte_small (c : Nat) (h : c < 256) : byte (c : Int) = c := by
  unfold byte
  omega

/-- The segment table and the payload of the page `encoderWriteBuf` builds. -/
theorem prePage_table (psn : Nat) (mid : List Nat) (r : Nat) (region : List Nat)
    (hm : mid.length = 4) (hr : r ≤ 3584) (hreg : r ≤ region.length) :
    segmentTable (stamped (prePage psn mid r region)) = (laceRun r).take ((r + 0xFE) / 0xFF)
      ∧ payload (stamped (prePage psn mid r region)) = region.take r
      ∧ ((laceRun r).take ((r + 0xFE) / 0xFF)).sum = r
      ∧ (region.take r).length = r := by
  have hc : (r + 0xFE) / 0xFF < 256 := by omega
  have hcl : ((laceRun r).take ((r + 0xFE) / 0xFF)).length = (r + 0xFE) / 0xFF := by
    rw [List.length_take, laceRun_length]; omega
  obtain ⟨-, h26, h27⟩ := stamped_pageHead_fields psn mid
    (byte (((r + 0xFE) / 0xFF : Nat) : Int))
    ((laceRun r).take ((r + 0xFE) / 0xFF) ++ region.take r) hm
  rw [byte_small _ hc] at h26 h27
  have hpre : prePage psn mid r region = pageHead psn mid ((r + 0xFE) / 0xFF)
      ++ ((laceRun r).take ((r + 0xFE) / 0xFF) ++ region.take r) := by
    unfold prePage; rw [byte_small _ hc]
  refine ⟨?_, ?_, ?_, ?_⟩
  · unfold segmentTable
    rw [hpre, h26, h27, List.take_left' hcl]
  · unfold payload
    rw [hpre, h26]
    have : (stamped (pageHead psn mid ((r + 0xFE) / 0xFF)
        ++ ((laceRun r).take ((r + 0xFE) / 0xFF) ++ region.take r))).drop
          (27 + (r + 0xFE) / 0xFF)
        = ((stamped (pageHead psn mid ((r + 0xFE) / 0xFF)
        ++ ((laceRun r).take ((r + 0xFE) / 0xFF) ++ region.take r))).drop 27).drop
          ((r + 0xFE) / 0xFF) := by
      rw [List.drop_drop]
    rw [this, h27, List.drop_left' hcl]
  · rcases Nat.eq_zero_or_pos r with h0 | hpos
    · subst h0; rfl
    · rw [List.take_of_length_le (by rw [laceRun_length]; omega), laceRun_sum]
  · rw [List.length_take]; omega

theorem codecWrite_length (whole : List Nat) (off : Nat) (data : List Nat)
    (h : off ≤ whole.length) : (codecWrite whole off data).length = whole.length := by
  unfold codecWrite
  rw [List.length_append, copy_length, List.length_take, List.length_drop]
  omega

/-- The codec writes from offset 0x200 on: the four bytes that become the
checksum field of the page are still zero. -/
theorem codecWrite_mid (data : List Nat) (k : Nat) (hk : k + 4 ≤ oggBufFrameOffset) :
    ((codecWrite (List.replicate 4096 0) oggBufFrameOffset data).drop k).take 4
      = [0, 0, 0, 0] := by
  unfold codecWrite
  have h1 : (List.replicate 4096 0).take oggBufFrameOffset = List.replicate 512 (0 : Nat) := by
    rw [List.take_replicate]; rfl
  rw [h1, List.drop_append_of_le_length
      (by rw [List.length_replicate]; unfold oggBufFrameOffset at hk; omega),
    List.take_append_of_le_length
      (by rw [List.length_drop, List.length_replicate]; unfold oggBufFrameOffset at hk; omega),
    List.drop_replicate, List.take_replicate]
  have : min 4 (512 - k) = 4 := by unfold oggBufFrameOffset at hk; omega
  rw [this]; rfl

/-- The two pages of `StreamHeader`. -/
theorem StreamHeader_eq (e : Encoder) (hf : e.cfg.Framing = FRAMING_OGG) :
    StreamHeader e
      = (.returned (stamped ((streamHeaderLiteral e).take 47)
          ++ stamped ((streamHeaderLiteral e).drop 47)) none, e) := by
  unfold StreamHeader
  rw [if_pos hf]
  have hl : ¬ ((streamHeaderLiteral e).length ≠ 88 ∨ ((streamHeaderLiteral e).take 47).length ≠ 47
      ∨ ((streamHeaderLiteral e).drop 47).length ≠ 41) := by
    simp [streamHeaderLiteral]
  simp only []
  rw [if_neg hl, oggChecksum_eq _ (by simp [streamHeaderLiteral]),
    oggChecksum_eq _ (by simp [streamHeaderLiteral])]
  rfl

theorem pageHead_getD_26 (psn : Nat) (mid : List Nat) (c : Nat) (rest : List Nat)
    (hm : mid.length = 4) : (pageHead psn mid c ++ rest).getD 26 0 = c := by
  obtain ⟨m0, m1, m2, m3, t, rfl⟩ := exists_four mid (by omega)
  have ht : t = [] := by
    simp only [List.length_cons] at hm
    exact List.length_eq_zero.mp (by omega)
  subst ht
  simp [pageHead, oggHeaderZero, le4]

/-! ## Sessions -/

theorem unsafeEncode_ogg (e : Encoder) (c : CodecCall) (hf : e.cfg.Framing = FRAMING_OGG)
    (h0 : 0 ≤ c.rc) (h1 : c.rc ≤ 3584) :
    ∃ region, 3584 ≤ region.length ∧
      unsafeEncode e c
        = (.returned (stamped (prePage e.psn [0, 0, 0, 0] c.rc.toNat region)) none,
           { e with psn := (e.psn + 1) % 2 ^ 32 }) := by
  have hlen : (codecWrite (List.replicate 4096 0) oggBufFrameOffset c.data).length = 4096 := by
    rw [codecWrite_length _ _ _ (by rw [List.length_replicate]; unfold oggBufFrameOffset; omega),
      List.length_replicate]
  refine ⟨(codecWrite (List.replicate 4096 0) oggBufFrameOffset c.data).drop oggBufFrameOffset,
    by rw [List.length_drop, hlen]; unfold oggBufFrameOffset; omega, ?_⟩
  unfold unsafeEncode encoderGetBufForRaw
  simp only [if_pos hf]
  rw [encoderWriteBuf_ogg e _ c.rc hf hlen h0 h1, codecWrite_mid]
  have : (c.rc.toNat + 0xFE) / 0xFF ≤ 15 := by omega
  unfold oggBufFrameOffset
  omega

theorem prePage_zero_mid (psn r : Nat) (region : List Nat) :
    26 ≤ (prePage psn [0, 0, 0, 0] r region).length
      ∧ ((prePage psn [0, 0, 0, 0] r region).drop 22).take 4 = [0, 0, 0, 0] := by
  unfold prePage
  refine ⟨?_, pageHead_mid_zero _ _ _⟩
  rw [List.length_append, pageHead_length]
  simp only [List.length_cons, List.length_nil]
  omega

theorem silencePre_zero_mid (psn n : Nat) (raw : List Nat) :
    26 ≤ (silencePre psn n raw).length
      ∧ ((silencePre psn n raw).drop 22).take 4 = [0, 0, 0, 0] := by
  unfold silencePre
  refine ⟨?_, pageHead_mid_zero _ _ _⟩
  rw [List.length_append, pageHead_length]
  simp only [List.length_cons, List.length_nil]
  omega

/-- One call in Ogg framing: either it returns a page that carries the
counter's value and the counter advances, or it fails and the session is as
before. -/
theorem step_ogg (e : Encoder) (c : Call) (hf : e.cfg.Framing = FRAMING_OGG)
    (hc : c.codecOk = true) :
    (∃ page, (step e c).1.page? = some page
        ∧ (e.psn < 2 ^ 32 → le32At page 18 = e.psn)
        ∧ (step e c).2 = { e with psn := (e.psn + 1) % 2 ^ 32 })
      ∨ ((step e c).1.page? = none ∧ (step e c).2 = e) := by
  cases c with
  | encode cc =>
    simp only [Call.codecOk, decide_eq_true_eq] at hc
    simp only [step]
    by_cases h0 : 0 ≤ cc.rc
    · obtain ⟨region, -, heq⟩ := unsafeEncode_ogg e cc hf h0 hc
      left
      rw [heq]
      refine ⟨_, rfl, fun hp => ?_, rfl⟩
      exact (stamped_pageHead_fields e.psn [0, 0, 0, 0] _ _ rfl).1 hp
    · right
      have hneg : cc.rc < 0 := by omega
      unfold unsafeEncode encoderGetBufForRaw encoderWriteBuf
      simp only [if_pos hf, if_pos hneg]
      exact ⟨rfl, trivial⟩
  | silence s =>
    simp only [step]
    by_cases h : 1 ≤ s.ntimes ∧ 1 ≤ s.raw.length
    · left
      rw [EncodeSilence_ok e s h.1 h.2]
      refine ⟨_, rfl, fun hp => ?_, rfl⟩
      exact (stamped_pageHead_fields e.psn [0, 0, 0, 0] _ _ rfl).1 hp
    · right
      obtain ⟨msg, hmsg⟩ := EncodeSilence_panics e s (by omega)
      rw [hmsg]
      exact ⟨rfl, rfl⟩

/-- A run in Ogg framing numbers its pages consecutively from the counter's
initial value and leaves the counter at that value plus the number of pages. -/
theorem run_ogg (cs : List Call) (e : Encoder) (hf : e.cfg.Framing = FRAMING_OGG)
    (hc : cs.all Call.codecOk = true) (hcount : e.psn + (run e cs).1.length < 2 ^ 32) :
    (run e cs).2.psn = e.psn + (run e cs).1.length
      ∧ ∀ k page, (run e cs).1[k]? = some page → le32At page 18 = e.psn + k := by
  induction cs generalizing e with
  | nil =>
    refine ⟨rfl, fun k page h => ?_⟩
    simp [run] at h
  | cons c cs ih =>
    simp only [List.all_cons, Bool.and_eq_true] at hc
    rcases step_ogg e c hf hc.1 with ⟨page, hpage, hseq, hstate⟩ | ⟨hnone, hstate⟩
    · have hrun : run e (c :: cs)
          = (page :: (run (step e c).2 cs).1, (run (step e c).2 cs).2) := by
        simp only [run, hpage]
      rw [hrun] at hcount ⊢
      simp only [List.length_cons] at hcount ⊢
      have hf1 : (step e c).2.cfg.Framing = FRAMING_OGG := by rw [hstate]; exact hf
      have hp1 : (step e c).2.psn = e.psn + 1 := by
        rw [hstate]
        exact Nat.mod_eq_of_lt (by omega)
      obtain ⟨ih1, ih2⟩ := ih (step e c).2 hf1 hc.2 (by rw [hp1]; omega)
      refine ⟨by rw [ih1, hp1]; omega, fun k pg h => ?_⟩
      cases k with
      | zero =>
        simp only [List.getElem?_cons_zero, Option.some.injEq] at h
        subst h
        exact hseq (by omega)
      | succ k =>
        simp only [List.getElem?_cons_succ] at h
        rw [ih2 k pg h, hp1]
        omega
    · have hrun : run e (c :: cs) = run (step e c).2 cs := by
        simp only [run, hnone]
      rw [hrun, hstate] at hcount ⊢
      exact ih e hf hc.2 hcount

/-! # The claims -/

/-- The model of `hash/crc32` agrees with the library on the standard check
value: with the IEEE table, the nine bytes "123456789" give 0xCBF43926. -/
theorem crc32_model_check :
    Checksum [49, 50, 51, 52, 53, 54, 55, 56, 57] (MakeTable 0xedb88320) = 0xCBF43926 := by
  rfl

set_option maxRecDepth 100000 in
/-- The reference checksum agrees with the Ogg CRC on the standard check
input: the nine bytes "123456789" give 0x89A1897F. -/
theorem oggCrcReference_check :
    oggCrcReference [49, 50, 51, 52, 53, 54, 55, 56, 57] = 0x89A1897F := by
  rfl

/-- C1 (code defect): on the one-byte sequence `[1]` the checksum the program
computes, `crc32.Checksum(bs, crc32.MakeTable(0x04c11db7))`, is 0xFC43CDC0,
while the CRC-32 of the Ogg container (polynomial 0x04C11DB7, left-shifting,
initial register 0, no final inversion) is 0x04C11DB7; on the check input
"123456789" the program gives 0xFC4F2BE9 and the container's CRC is 0x89A1897F. -/
theorem C1_checksum_is_not_the_ogg_crc :
    Checksum [1] oggCrc32 = 0xFC43CDC0 ∧ oggCrcReference [1] = 0x04C11DB7
      ∧ Checksum [49, 50, 51, 52, 53, 54, 55, 56, 57] oggCrc32 = 0xFC4F2BE9 :=
  ⟨by rfl, by rfl, by rfl⟩

/-- C2: every page the program builds stores the program's checksum of the page
with the checksum field zeroed: the page of an encode call in Ogg framing for a
codec result `0 ≤ rc ≤ 3584`, the page of `EncodeSilence` for `ntimes ≥ 1` and
a non-empty payload, and each of the two pages (bytes 0..46 and 47..87) of
`StreamHeader`. -/
theorem C2_checksum_roundtrip :
    (∀ (e : Encoder) (c : CodecCall), e.cfg.Framing = FRAMING_OGG → 0 ≤ c.rc → c.rc ≤ 3584 →
        ∃ page, (unsafeEncode e c).1 = .returned page none
          ∧ Checksum (zeroChecksumField page) oggCrc32 = le32At page 22)
      ∧ (∀ (e : Encoder) (s : Silence), 1 ≤ s.ntimes → 1 ≤ s.raw.length →
        ∃ page, (EncodeSilence e s).1 = .returned page none
          ∧ Checksum (zeroChecksumField page) oggCrc32 = le32At page 22)
      ∧ (∀ e : Encoder, e.cfg.Framing = FRAMING_OGG →
        ∃ bs, (StreamHeader e).1 = .returned bs none ∧ bs.length = 88
          ∧ Checksum (zeroChecksumField (bs.take 47)) oggCrc32 = le32At (bs.take 47) 22
          ∧ Checksum (zeroChecksumField (bs.drop 47)) oggCrc32 = le32At (bs.drop 47) 22) := by
  refine ⟨fun e c hf h0 h1 => ?_, fun e s hn hL => ?_, fun e hf => ?_⟩
  · obtain ⟨region, -, heq⟩ := unsafeEncode_ogg e c hf h0 h1
    rw [heq]
    obtain ⟨h26, hz⟩ := prePage_zero_mid e.psn c.rc.toNat region
    exact ⟨_, rfl, stamped_roundtrip _ h26 hz⟩
  · rw [EncodeSilence_ok e s hn hL]
    obtain ⟨h26, hz⟩ := silencePre_zero_mid e.psn s.ntimes.toNat s.raw
    exact ⟨_, rfl, stamped_roundtrip _ h26 hz⟩
  · rw [StreamHeader_eq e hf]
    have l0 : ((streamHeaderLiteral e).take 47).length = 47 := by simp [streamHeaderLiteral]
    have l1 : ((streamHeaderLiteral e).drop 47).length = 41 := by simp [streamHeaderLiteral]
    have s0 : (stamped ((streamHeaderLiteral e).take 47)).length = 47 := by
      rw [stamped_length _ (by omega), l0]
    refine ⟨_, rfl, ?_, ?_, ?_⟩
    · rw [List.length_append, s0, stamped_length _ (by omega), l1]
    · rw [List.take_left' s0]
      exact stamped_roundtrip _ (by omega) (by simp [streamHeaderLiteral])
    · rw [List.drop_left' s0]
      exact stamped_roundtrip _ (by omega) (by simp [streamHeaderLiteral])

/-- C3: for a session made by `NewEncoder` in Ogg framing and every sequence of
encode calls (with the codec reporting at most the 3584 bytes of its output
region, or an error) and `EncodeSilence` calls with fewer than `2 ^ 32 - 2`
successful ones: the counter ends at 2 plus the number of pages, the `k`-th
page carries `2 + k` in bytes 18..21, a successful call advances the counter by
one (modulo `2 ^ 32`), a failing call leaves it unchanged, and the two header
pages carry 0 and 1. -/
theorem C3_page_sequence (cfg : EncoderConfig) (handle : Nat) (e0 : Encoder)
    (hnew : NewEncoder cfg handle = some e0) (hogg : cfg.Framing = FRAMING_OGG)
    (cs : List Call) (hcodec : cs.all Call.codecOk = true)
    (hcount : (run e0 cs).1.length < 2 ^ 32 - 2) :
    (run e0 cs).2.psn = 2 + (run e0 cs).1.length
      ∧ (∀ k page, (run e0 cs).1[k]? = some page → le32At page 18 = 2 + k)
      ∧ (∀ (e : Encoder) (c : Call), e.cfg.Framing = FRAMING_OGG → c.codecOk = true →
          ((step e c).1.page? ≠ none → (step e c).2.psn = (e.psn + 1) % 2 ^ 32)
            ∧ ((step e c).1.page? = none → (step e c).2.psn = e.psn))
      ∧ (∃ bs, (StreamHeader e0).1 = .returned bs none
          ∧ le32At (bs.take 47) 18 = 0 ∧ le32At (bs.drop 47) 18 = 1) := by
  have he0 : e0.cfg.Framing = FRAMING_OGG ∧ e0.psn = 2 := by
    unfold NewEncoder at hnew
    split at hnew
    · cases hnew
    · injection hnew with hnew
      subst hnew
      exact ⟨hogg, rfl⟩
  obtain ⟨hf, hp⟩ := he0
  obtain ⟨h1, h2⟩ := run_ogg cs e0 hf hcodec (by rw [hp]; omega)
  rw [hp] at h1 h2
  refine ⟨h1, h2, fun e c hfe hc => ?_, ?_⟩
  · rcases step_ogg e c hfe hc with ⟨page, hpage, -, hstate⟩ | ⟨hnone, hstate⟩
    · refine ⟨fun _ => by rw [hstate], fun h => ?_⟩
      rw [hpage] at h
      cases h
    · refine ⟨fun h => absurd hnone h, fun _ => by rw [hstate]⟩
  · rw [StreamHeader_eq e0 hf]
    have l0 : ((streamHeaderLiteral e0).take 47).length = 47 := by simp [streamHeaderLiteral]
    have s0 : (stamped ((streamHeaderLiteral e0).take 47)).length = 47 := by
      rw [stamped_length _ (by omega), l0]
    refine ⟨_, rfl, ?_, ?_⟩
    · rw [List.take_left' s0]
      simp [stamped, streamHeaderLiteral, le32At]
    · rw [List.drop_left' s0]
      simp [stamped, streamHeaderLiteral, le32At]

/-- C2 at concrete inputs: an encode call with three payload bytes, a silence
page with two copies of a three-byte payload, and the header pages of the
default session. -/
theorem C2_checksum_roundtrip_witness :
    (∃ page, (unsafeEncode ⟨1, [], DefaultConfig, 2⟩ ⟨[7, 8, 9], 3⟩).1 = .returned page none
        ∧ Checksum (zeroChecksumField page) oggCrc32 = le32At page 22)
      ∧ (∃ page, (EncodeSilence ⟨1, [], DefaultConfig, 2⟩ ⟨[5, 6, 7], 2⟩).1
          = .returned page none
        ∧ Checksum (zeroChecksumField page) oggCrc32 = le32At page 22)
      ∧ (∃ bs, (StreamHeader ⟨1, [], DefaultConfig, 2⟩).1 = .returned bs none
        ∧ bs.length = 88
        ∧ Checksum (zeroChecksumField (bs.take 47)) oggCrc32 = le32At (bs.take 47) 22
        ∧ Checksum (zeroChecksumField (bs.drop 47)) oggCrc32 = le32At (bs.drop 47) 22) :=
  ⟨C2_checksum_roundtrip.1 ⟨1, [], DefaultConfig, 2⟩ ⟨[7, 8, 9], 3⟩ rfl (by decide) (by decide),
    C2_checksum_roundtrip.2.1 ⟨1, [], DefaultConfig, 2⟩ ⟨[5, 6, 7], 2⟩ (by decide) (by decide),
    C2_checksum_roundtrip.2.2 ⟨1, [], DefaultConfig, 2⟩ rfl⟩

set_option maxRecDepth 20000 in
/-- The silence page of two copies of `[5, 6, 7]` on the default session at
`psn = 2`, byte by byte, and its round trip by computation. -/
theorem EncodeSilence_example :
    EncodeSilence ⟨1, [], DefaultConfig, 2⟩ ⟨[5, 6, 7], 2⟩
        = (.returned [79, 103, 103, 83, 0, 0, 0, 0, 0, 0, 0, 0, 0, 0, 17, 34, 51, 68,
            2, 0, 0, 0, 119, 115, 198, 254, 2, 3, 3, 5, 6, 7, 5, 6, 7] none,
          ⟨1, [], DefaultConfig, 3⟩)
      ∧ Checksum [79, 103, 103, 83, 0, 0, 0, 0, 0, 0, 0, 0, 0, 0, 17, 34, 51, 68,
            2, 0, 0, 0, 0, 0, 0, 0, 2, 3, 3, 5, 6, 7, 5, 6, 7] oggCrc32
          = 119 + 2 ^ 8 * 115 + 2 ^ 16 * 198 + 2 ^ 24 * 254 :=
  ⟨by rfl, by rfl⟩

/-- C3 at a concrete session: `NewEncoder(DefaultConfig)`, then a silence call
with two copies of a two-byte payload, a codec failure, a silence call with
repeat count 0 (it panics) and a silence call with one byte: two pages, and the
counter ends at 4. -/
theorem C3_page_sequence_witness :
    (run ⟨1, List.replicate (256 * 1024) 0, DefaultConfig, 2⟩
        [.silence ⟨[5, 6], 2⟩, .encode ⟨[], -1⟩, .silence ⟨[5], 0⟩,
          .silence ⟨[7], 1⟩]).2.psn
        = 2 + (run ⟨1, List.replicate (256 * 1024) 0, DefaultConfig, 2⟩
          [.silence ⟨[5, 6], 2⟩, .encode ⟨[], -1⟩, .silence ⟨[5], 0⟩,
            .silence ⟨[7], 1⟩]).1.length
      ∧ (run ⟨1, List.replicate (256 * 1024) 0, DefaultConfig, 2⟩
        [.silence ⟨[5, 6], 2⟩, .encode ⟨[], -1⟩, .silence ⟨[5], 0⟩,
          .silence ⟨[7], 1⟩]).1.length = 2 := by
  have hlen : (run ⟨1, List.replicate (256 * 1024) 0, DefaultConfig, 2⟩
        [.silence ⟨[5, 6], 2⟩, .encode ⟨[], -1⟩, .silence ⟨[5], 0⟩,
          .silence ⟨[7], 1⟩]).1.length = 2 := by rfl
  exact ⟨(C3_page_sequence DefaultConfig 1
      ⟨1, List.replicate (256 * 1024) 0, DefaultConfig, 2⟩ rfl rfl
      [.silence ⟨[5, 6], 2⟩, .encode ⟨[], -1⟩, .silence ⟨[5], 0⟩, .silence ⟨[7], 1⟩]
      (by decide) (by rw [hlen]; decide)).1, hlen⟩

/-- C4 (code defect): the segment count the program computes is
`(L + 254) / 255`: it agrees with `L / 255 + 1` exactly when `L` is not a
multiple of 255; for `L = 255` it is 1 where `L / 255 + 1` is 2 (and 0 for
`L = 0`, 2 for `L = 510`), and that is the value `oggSplatHeader` writes into
byte 26. -/
theorem C4_segment_count_at_multiples_of_255 :
    oggPageHeaderSizeFor 255 - 27 = 1 ∧ 255 / 255 + 1 = 2
      ∧ oggPageHeaderSizeFor 0 - 27 = 0 ∧ oggPageHeaderSizeFor 510 - 27 = 2
      ∧ (oggSplatHeader (List.replicate 283 0) 2 255).map (fun out => out.getD 26 0) = some 1
      ∧ (∀ L, L % 255 ≠ 0 → oggPageHeaderSizeFor L - 27 = L / 255 + 1)
      ∧ (∀ L, L % 255 = 0 → oggPageHeaderSizeFor L - 27 = L / 255) := by
  refine ⟨by decide, by decide, by decide, by decide, ?_, fun L h => ?_, fun L h => ?_⟩
  · rw [oggSplatHeader_eq _ 2 255 (by rw [List.length_replicate]; omega)]
    simp only [Option.map]
    rw [pageHead_getD_26 _ _ _ _ (by
      rw [List.length_take, List.length_drop, List.length_replicate]; omega)]
    rfl
  · unfold oggPageHeaderSizeFor; omega
  · unfold oggPageHeaderSizeFor; omega

/-- C5 (code defect): for a payload of 255 bytes the page of an encode call has
the one-entry segment table `[255]`, and for 510 bytes `[255, 255]`: the
entries of value 255 are there, the terminating 0 entry is not, and the table
ends with 255. For an empty payload the table is empty. -/
theorem C5_no_terminating_segment :
    (∃ page, (unsafeEncode ⟨1, [], DefaultConfig, 2⟩ ⟨List.replicate 255 7, 255⟩).1
        = .returned page none ∧ segmentTable page = [255] ∧ (payload page).length = 255)
      ∧ (∃ page, (unsafeEncode ⟨1, [], DefaultConfig, 2⟩ ⟨List.replicate 510 7, 510⟩).1
        = .returned page none ∧ segmentTable page = [255, 255]
          ∧ (payload page).length = 510)
      ∧ (∃ page, (unsafeEncode ⟨1, [], DefaultConfig, 2⟩ ⟨[], 0⟩).1
        = .returned page none ∧ segmentTable page = [] ∧ (payload page).length = 0) := by
  refine ⟨?_, ?_, ?_⟩
  · obtain ⟨region, hreg, heq⟩ := unsafeEncode_ogg ⟨1, [], DefaultConfig, 2⟩
      ⟨List.replicate 255 7, 255⟩ rfl (by decide) (by decide)
    have heq1 : (unsafeEncode ⟨1, [], DefaultConfig, 2⟩ ⟨List.replicate 255 7, 255⟩).1
        = .returned (stamped (prePage 2 [0, 0, 0, 0] 255 region)) none := by
      rw [heq]; rfl
    obtain ⟨h1, h2, -, h4⟩ := prePage_table 2 [0, 0, 0, 0] 255 region rfl (by omega) (by omega)
    exact ⟨_, heq1, h1.trans (by decide), by rw [h2]; exact h4⟩
  · obtain ⟨region, hreg, heq⟩ := unsafeEncode_ogg ⟨1, [], DefaultConfig, 2⟩
      ⟨List.replicate 510 7, 510⟩ rfl (by decide) (by decide)
    have heq1 : (unsafeEncode ⟨1, [], DefaultConfig, 2⟩ ⟨List.replicate 510 7, 510⟩).1
        = .returned (stamped (prePage 2 [0, 0, 0, 0] 510 region)) none := by
      rw [heq]; rfl
    obtain ⟨h1, h2, -, h4⟩ := prePage_table 2 [0, 0, 0, 0] 510 region rfl (by omega) (by omega)
    exact ⟨_, heq1, h1.trans (by decide), by rw [h2]; exact h4⟩
  · obtain ⟨region, hreg, heq⟩ := unsafeEncode_ogg ⟨1, [], DefaultConfig, 2⟩
      ⟨[], 0⟩ rfl (by decide) (by decide)
    have heq1 : (unsafeEncode ⟨1, [], DefaultConfig, 2⟩ ⟨[], 0⟩).1
        = .returned (stamped (prePage 2 [0, 0, 0, 0] 0 region)) none := by
      rw [heq]; rfl
    obtain ⟨h1, h2, -, h4⟩ := prePage_table 2 [0, 0, 0, 0] 0 region rfl (by omega) (by omega)
    exact ⟨_, heq1, h1.trans (by decide), by rw [h2]; exact h4⟩

/-- C6: for every page `encoderWriteBuf` returns in Ogg framing for a codec
result `0 ≤ rc ≤ 3584` (on the 4096-byte buffer of `encoderGetBufForRaw`), the
segment-table entries sum to the number of payload bytes after the table, and
that number is `rc`. -/
theorem C6_segment_sum_is_payload_length (e : Encoder) (all : List Nat) (rc : Int)
    (hf : e.cfg.Framing = FRAMING_OGG) (hall : all.length = 4096)
    (h0 : 0 ≤ rc) (h1 : rc ≤ 3584) :
    ∃ page, (encoderWriteBuf e all rc).1 = .returned page none
      ∧ (segmentTable page).sum = (payload page).length
      ∧ ((payload page).length : Int) = rc := by
  rw [encoderWriteBuf_ogg e all rc hf hall h0 h1]
  have hm : ((all.drop (oggBufFrameOffset - (27 + (rc.toNat + 0xFE) / 0xFF) + 22)).take 4).length
      = 4 := by
    rw [List.length_take, List.length_drop, hall]
    unfold oggBufFrameOffset
    omega
  obtain ⟨t1, t2, t3, t4⟩ := prePage_table e.psn _ rc.toNat (all.drop oggBufFrameOffset) hm
    (by omega) (by rw [List.length_drop, hall]; unfold oggBufFrameOffset; omega)
  refine ⟨_, rfl, ?_, ?_⟩
  · rw [t1, t2, t3, t4]
  · rw [t2, t4]; omega

/-- C6 at a concrete call: the default session, a zero buffer, `rc = 300`. -/
theorem C6_segment_sum_is_payload_length_witness :
    ∃ page, (encoderWriteBuf ⟨1, [], DefaultConfig, 2⟩ (List.replicate 4096 0) 300).1
        = .returned page none
      ∧ (segmentTable page).sum = (payload page).length
      ∧ ((payload page).length : Int) = 300 :=
  C6_segment_sum_is_payload_length ⟨1, [], DefaultConfig, 2⟩ (List.replicate 4096 0) 300
    rfl (List.length_replicate _ _) (by decide) (by decide)

/-- C7 (code defect): in framing mode FRAMING_NONE `encoderWriteBuf` slices the
nil slice `buf`, not the codec's buffer: for a codec result of 3 bytes it
panics (slice bounds out of range), for every `rc > 0` it panics, and for
`rc = 0` it returns the empty slice; the counter is unchanged. -/
theorem C7_framing_none_panics :
    unsafeEncode ⟨1, [], ⟨48000, 2, APPLICATION_AUDIO, FRAMING_NONE⟩, 2⟩ ⟨[7, 8, 9], 3⟩
        = (.panicked "slice bounds out of range",
            ⟨1, [], ⟨48000, 2, APPLICATION_AUDIO, FRAMING_NONE⟩, 2⟩)
      ∧ (∀ (e : Encoder) (all : List Nat) (rc : Int), e.cfg.Framing = FRAMING_NONE → 0 < rc →
          encoderWriteBuf e all rc = (.panicked "slice bounds out of range", e))
      ∧ (∀ (e : Encoder) (all : List Nat), e.cfg.Framing = FRAMING_NONE →
          encoderWriteBuf e all 0 = (.returned [] none, e)) := by
  refine ⟨by rfl, fun e all rc hf hrc => ?_, fun e all hf => ?_⟩
  · unfold encoderWriteBuf
    rw [if_neg (by omega)]
    simp only [if_pos hf]
    have : ¬ (0 ≤ rc.toNat ∧ rc.toNat ≤ ([] : List Nat).length) := by
      simp only [List.length_nil]; omega
    simp only [slice, if_neg this]
  · unfold encoderWriteBuf
    rw [if_neg (by omega)]
    simp only [if_pos hf]
    rfl

/-- The shape of every result of `encoderWriteBuf`: one of the three error
returns with no bytes and the session untouched, or a result that is not an
error return. -/
theorem encoderWriteBuf_cases (e : Encoder) (all : List Nat) (rc : Int) :
    ((rc < 0 ∨ (e.cfg.Framing = FRAMING_OGG ∧ oggBufFrameOffset < 27 + (rc.toNat + 0xFE) / 0xFF)
          ∨ (e.cfg.Framing ≠ FRAMING_NONE ∧ e.cfg.Framing ≠ FRAMING_OGG))
        ∧ ∃ msg, encoderWriteBuf e all rc = (.returned [] (some msg), e))
      ∨ (¬ (rc < 0 ∨ (e.cfg.Framing = FRAMING_OGG
              ∧ oggBufFrameOffset < 27 + (rc.toNat + 0xFE) / 0xFF)
            ∨ (e.cfg.Framing ≠ FRAMING_NONE ∧ e.cfg.Framing ≠ FRAMING_OGG))
        ∧ ((∃ bs, (encoderWriteBuf e all rc).1 = .returned bs none)
          ∨ ∃ msg, (encoderWriteBuf e all rc).1 = .panicked msg)) := by
  have hno : FRAMING_NONE ≠ FRAMING_OGG := by decide
  unfold encoderWriteBuf
  by_cases hneg : rc < 0
  · left
    rw [if_pos hneg]
    exact ⟨Or.inl hneg, _, rfl⟩
  · rw [if_neg hneg]
    by_cases hN : e.cfg.Framing = FRAMING_NONE
    · right
      simp only [if_pos hN]
      refine ⟨?_, ?_⟩
      · rintro (h | ⟨h, -⟩ | ⟨h, -⟩)
        · exact hneg h
        · exact hno (hN.symm.trans h)
        · exact h hN
      · split
        · exact Or.inr ⟨_, rfl⟩
        · exact Or.inl ⟨_, rfl⟩
    · simp only [if_neg hN]
      by_cases hO : e.cfg.Framing = FRAMING_OGG
      · simp only [if_pos hO]
        by_cases hh : 27 + (rc.toNat + 0xFE) / 0xFF > oggBufFrameOffset
        · left
          rw [if_pos hh]
          exact ⟨Or.inr (Or.inl ⟨hO, hh⟩), _, rfl⟩
        · right
          rw [if_neg hh]
          refine ⟨?_, ?_⟩
          · rintro (h | ⟨-, h⟩ | ⟨-, h⟩)
            · exact hneg h
            · exact hh h
            · exact h hO
          · split
            · exact Or.inr ⟨_, rfl⟩
            · split
              · exact Or.inr ⟨_, rfl⟩
              · split
                · exact Or.inr ⟨_, rfl⟩
                · exact Or.inl ⟨_, rfl⟩
      · left
        simp only [if_neg hO]
        exact ⟨Or.inr (Or.inr ⟨hN, hO⟩), _, rfl⟩

/-- C8: for every session, buffer and codec result: a negative codec result
makes `encoderWriteBuf` return an error; whenever it returns an error it
returns no bytes and leaves the session, the counter `psn` included, as it
was; and it returns an error exactly for a negative codec result, a computed
header larger than 0x200 in Ogg framing, or a framing mode other than
FRAMING_NONE and FRAMING_OGG. -/
theorem C8_error_returns_nothing (e : Encoder) (all : List Nat) (rc : Int) :
    (rc < 0 → (encoderWriteBuf e all rc).1 = .returned [] (some "Opus encoding error"))
      ∧ (∀ bs msg, (encoderWriteBuf e all rc).1 = .returned bs (some msg) →
          bs = [] ∧ (encoderWriteBuf e all rc).2 = e
            ∧ (encoderWriteBuf e all rc).2.psn = e.psn)
      ∧ ((∃ bs msg, (encoderWriteBuf e all rc).1 = .returned bs (some msg))
          ↔ (rc < 0 ∨ (e.cfg.Framing = FRAMING_OGG
                ∧ oggBufFrameOffset < 27 + (rc.toNat + 0xFE) / 0xFF)
              ∨ (e.cfg.Framing ≠ FRAMING_NONE ∧ e.cfg.Framing ≠ FRAMING_OGG))) := by
  refine ⟨fun hneg => ?_, fun bs msg h => ?_, ?_⟩
  · unfold encoderWriteBuf
    rw [if_pos hneg]
  · rcases encoderWriteBuf_cases e all rc with ⟨-, m, hm⟩ | ⟨-, ⟨b, hb⟩ | ⟨m, hm⟩⟩
    · rw [hm] at h ⊢
      injection h with h1 h2
      exact ⟨h1.symm, rfl, rfl⟩
    · rw [hb] at h
      injection h with h1 h2
      cases h2
    · rw [hm] at h
      cases h
  · rcases encoderWriteBuf_cases e all rc with ⟨hc, m, hm⟩ | ⟨hc, ⟨b, hb⟩ | ⟨m, hm⟩⟩
    · exact ⟨fun _ => hc, fun _ => ⟨[], m, by rw [hm]⟩⟩
    · refine ⟨fun ⟨bs, msg, h⟩ => ?_, fun h => absurd h hc⟩
      rw [hb] at h
      injection h with h1 h2
      cases h2
    · refine ⟨fun ⟨bs, msg, h⟩ => ?_, fun h => absurd h hc⟩
      rw [hm] at h
      cases h

/-- C8 at concrete inputs: a codec failure on the default session returns the
error, no bytes, and the session as it was. -/
theorem C8_error_returns_nothing_witness :
    (encoderWriteBuf ⟨1, [], DefaultConfig, 2⟩ (List.replicate 4096 0) (-1)).1
        = .returned [] (some "Opus encoding error")
      ∧ (encoderWriteBuf ⟨1, [], DefaultConfig, 2⟩ (List.replicate 4096 0) (-1)).2
        = ⟨1, [], DefaultConfig, 2⟩ :=
  ⟨(C8_error_returns_nothing ⟨1, [], DefaultConfig, 2⟩ (List.replicate 4096 0) (-1)).1
      (by decide),
    ((C8_error_returns_nothing ⟨1, [], DefaultConfig, 2⟩ (List.replicate 4096 0) (-1)).2.1
      [] "Opus encoding error"
      ((C8_error_returns_nothing ⟨1, [], DefaultConfig, 2⟩ (List.replicate 4096 0) (-1)).1
        (by decide))).2.1⟩

/-- The two pages of `StreamHeader`, byte by byte, with the checksum values
`v0`, `v1` the stamp put in. -/
theorem StreamHeader_pages (e : Encoder) :
    ∃ v0 v1,
      stamped ((streamHeaderLiteral e).take 47)
        = [79, 103, 103, 83, 0, 2, 0, 0, 0, 0, 0, 0, 0, 0, 0x11, 0x22, 0x33, 0x44,
            0, 0, 0, 0] ++ (le4 v0 ++ [1, 19, 79, 112, 117, 115, 72, 101, 97, 100,
            1, byte e.cfg.Channels, 0, 0, 0, 0, 0, 0, 0, 0, 0])
      ∧ stamped ((streamHeaderLiteral e).drop 47)
        = [79, 103, 103, 83, 0, 0, 0, 0, 0, 0, 0, 0, 0, 0, 0x11, 0x22, 0x33, 0x44,
            1, 0, 0, 0] ++ (le4 v1 ++ [1, 12, 79, 112, 117, 115, 84, 97, 103, 115,
            1, 0, 0, 0, 120]) :=
  ⟨Checksum ((streamHeaderLiteral e).take 47) oggCrc32,
    Checksum ((streamHeaderLiteral e).drop 47) oggCrc32, rfl, rfl⟩

/-- C9 (code defect): in the second page of `StreamHeader` the segment table
sums to 12 while 13 payload bytes follow it (in the first page both are 19). -/
theorem C9_comment_page_lacing_mismatch :
    ∃ p0 p1, (StreamHeader ⟨1, [], DefaultConfig, 2⟩).1 = .returned (p0 ++ p1) none
      ∧ p0.length = 47 ∧ p1.length = 41
      ∧ (segmentTable p0).sum = 19 ∧ (payload p0).length = 19
      ∧ (segmentTable p1).sum = 12 ∧ (payload p1).length = 13 := by
  obtain ⟨v0, v1, h0, h1⟩ := StreamHeader_pages ⟨1, [], DefaultConfig, 2⟩
  refine ⟨_, _, by rw [StreamHeader_eq _ rfl], ?_⟩
  rw [h0, h1]
  simp [le4, segmentTable, payload]

/-- C10: in Ogg framing `StreamHeader` returns two pages back to back, 47 and
41 bytes, each opening with the capture pattern, and leaves the session (and
`psn`) unchanged. The first page has header-type byte 2, page-sequence field 0
and, after its one-entry segment table, the 19 payload bytes 'OpusHead', 1,
the channel count modulo 256, nine zero bytes; the second has header-type byte
0 and page-sequence field 1. Two sessions in Ogg framing with the same channel
count give the same bytes. -/
theorem C10_stream_header (e : Encoder) (hf : e.cfg.Framing = FRAMING_OGG) :
    ∃ p0 p1, StreamHeader e = (.returned (p0 ++ p1) none, e)
      ∧ p0.length = 47 ∧ p1.length = 41
      ∧ p0.take 4 = [79, 103, 103, 83] ∧ p1.take 4 = [79, 103, 103, 83]
      ∧ p0.getD 5 0 = 2 ∧ le32At p0 18 = 0
      ∧ segmentTable p0 = [19]
      ∧ payload p0 = [79, 112, 117, 115, 72, 101, 97, 100, 1,
          (e.cfg.Channels % 256).toNat, 0, 0, 0, 0, 0, 0, 0, 0, 0]
      ∧ p1.getD 5 0 = 0 ∧ le32At p1 18 = 1
      ∧ (StreamHeader e).2.psn = e.psn
      ∧ ∀ e1 : Encoder, e1.cfg.Framing = FRAMING_OGG → e1.cfg.Channels = e.cfg.Channels →
          (StreamHeader e1).1 = (StreamHeader e).1 := by
  obtain ⟨v0, v1, h0, h1⟩ := StreamHeader_pages e
  refine ⟨_, _, StreamHeader_eq e hf, ?_⟩
  rw [StreamHeader_eq e hf, h0, h1]
  refine ⟨by simp [le4], by simp [le4], by simp, by simp, by simp, by simp [le4, le32At],
    by simp [le4, segmentTable], by simp [le4, payload, byte], by simp,
    by simp [le4, le32At], rfl, fun e1 hf1 hch => ?_⟩
  rw [StreamHeader_eq e1 hf1]
  have hlit : streamHeaderLiteral e1 = streamHeaderLiteral e := by
    unfold streamHeaderLiteral
    rw [hch]
  rw [hlit, h0, h1]

/-- C10 at the default session: two channels. -/
theorem C10_stream_header_witness :
    ∃ p0 p1, StreamHeader ⟨1, [], DefaultConfig, 2⟩
        = (.returned (p0 ++ p1) none, ⟨1, [], DefaultConfig, 2⟩)
      ∧ p0.length = 47 ∧ p1.length = 41
      ∧ p0.take 4 = [79, 103, 103, 83] ∧ p1.take 4 = [79, 103, 103, 83]
      ∧ p0.getD 5 0 = 2 ∧ le32At p0 18 = 0
      ∧ segmentTable p0 = [19]
      ∧ payload p0 = [79, 112, 117, 115, 72, 101, 97, 100, 1,
          2, 0, 0, 0, 0, 0, 0, 0, 0, 0]
      ∧ p1.getD 5 0 = 0 ∧ le32At p1 18 = 1
      ∧ (StreamHeader ⟨1, [], DefaultConfig, 2⟩).2.psn = 2
      ∧ ∀ e1 : Encoder, e1.cfg.Framing = FRAMING_OGG → e1.cfg.Channels = 2 →
          (StreamHeader e1).1 = (StreamHeader ⟨1, [], DefaultConfig, 2⟩).1 :=
  C10_stream_header ⟨1, [], DefaultConfig, 2⟩ rfl

/-! # Silence synthesis and the remaining claims -/

theorem sampleSize_eq (d : Int) :
    sampleSize d
      = if d ≥ 2880 then 2880 else if d ≥ 1920 then 1920 else if d ≥ 960 then 960
        else if d ≥ 480 then 480 else if d ≥ 240 then 240 else 120 := by
  unfold sampleSize srates
  simp only [sampleSizeFrom]
  split_ifs <;> rfl

theorem sampleSize_pos (d : Int) : 120 ≤ sampleSize d := by
  rw [sampleSize_eq]
  split_ifs <;> omega

/-- In `CreateSilence`, once the codec has succeeded with at most 255 bytes on
a session with a positive channel count, the result is a `Silence` whose
repeat count is the truncated quotient. -/
theorem CreateSilence_ok (e : Encoder) (d : Int) (c : CodecCall)
    (hch : 0 < e.cfg.Channels) (h0 : 0 ≤ c.rc) (h1 : c.rc ≤ 255) :
    ∃ raw, raw.length = c.rc.toNat
      ∧ CreateSilence e d c = .returned (some ⟨raw, d.tdiv (sampleSize d)⟩) none := by
  have hs := sampleSize_pos d
  have hpos : 0 < sampleSize d * e.cfg.Channels := Int.mul_pos (by omega) hch
  have hlen : (codecWrite (List.replicate 0xFF 0) 0 c.data).length = 255 := by
    rw [codecWrite_length _ _ _ (Nat.zero_le _), List.length_replicate]
  unfold CreateSilence
  simp only []
  rw [if_neg (by omega), if_neg (by omega), if_neg (by omega)]
  have hsl : slice (codecWrite (List.replicate 0xFF 0) 0 c.data) 0 c.rc.toNat
      = some (((codecWrite (List.replicate 0xFF 0) 0 c.data).take c.rc.toNat).drop 0) := by
    unfold slice
    rw [if_pos ⟨Nat.zero_le _, by rw [hlen]; omega⟩]
  rw [hsl]
  refine ⟨_, ?_, rfl⟩
  rw [List.drop_zero, List.length_take, hlen]
  omega

/-- C14: for every integer duration in samples `d`, `sampleSize d` is one of
2880, 1920, 960, 480, 240, 120; for `d ≥ 120` it is the largest of them not
exceeding `d`; for `d < 120` it is 120. For `d = 24000` it is 2880, and the
repeat count `CreateSilence` computes, the truncated quotient, is 8. -/
theorem C14_sampleSize (d : Int) :
    sampleSize d ∈ srates
      ∧ (120 ≤ d → sampleSize d ≤ d ∧ ∀ m ∈ srates, m ≤ d → m ≤ sampleSize d)
      ∧ (d < 120 → sampleSize d = 120)
      ∧ sampleSize 24000 = 2880
      ∧ (24000 : Int).tdiv (sampleSize 24000) = 8
      ∧ (∀ (e : Encoder) (c : CodecCall), 0 < e.cfg.Channels → 0 ≤ c.rc → c.rc ≤ 255 →
          ∃ raw, CreateSilence e 24000 c = .returned (some ⟨raw, 8⟩) none) := by
  have h24 : sampleSize 24000 = 2880 := by decide
  have hq : (24000 : Int).tdiv (sampleSize 24000) = 8 := by rw [h24]; decide
  refine ⟨?_, fun h => ⟨?_, fun m hm hmd => ?_⟩, fun h => ?_, h24, hq, fun e c hch h0 h1 => ?_⟩
  · rw [sampleSize_eq]
    unfold srates
    split_ifs <;> simp
  · rw [sampleSize_eq]
    split_ifs <;> omega
  · rw [sampleSize_eq]
    simp only [srates, List.mem_cons, List.mem_singleton, List.not_mem_nil, or_false] at hm
    rcases hm with rfl | rfl | rfl | rfl | rfl | rfl <;> split_ifs <;> omega
  · rw [sampleSize_eq]
    split_ifs <;> omega
  · obtain ⟨raw, -, hraw⟩ := CreateSilence_ok e 24000 c hch h0 h1
    rw [hq] at hraw
    exact ⟨raw, hraw⟩

/-- C14 at the durations 24000, 119 and -5 samples, and `CreateSilence` for
500 ms at 48000 Hz on the default session with a three-byte codec result. -/
theorem C14_sampleSize_witness :
    sampleSize 24000 = 2880 ∧ sampleSize 119 = 120 ∧ sampleSize (-5) = 120
      ∧ ∃ raw, CreateSilence ⟨1, [], DefaultConfig, 2⟩ 24000 ⟨[1, 2, 3], 3⟩
        = .returned (some ⟨raw, 8⟩) none :=
  ⟨(C14_sampleSize 24000).2.2.2.1, (C14_sampleSize 119).2.2.1 (by decide),
    (C14_sampleSize (-5)).2.2.1 (by decide),
    (C14_sampleSize 24000).2.2.2.2.2 ⟨1, [], DefaultConfig, 2⟩ ⟨[1, 2, 3], 3⟩
      (by decide) (by decide) (by decide)⟩

/-- The lacing run the program writes is the run the specification words:
255 while more than 255 remains, then the remainder. -/
theorem lacingValues_eq (fuel d : Nat) (h : (d - 1) / 255 ≤ fuel) :
    lacingValues fuel d = laceRun d := by
  induction fuel generalizing d with
  | zero =>
    have h0 : (d - 1) / 255 = 0 := by omega
    simp [lacingValues, laceRun, h0]
  | succ fuel ih =>
    unfold lacingValues
    by_cases hd : d > 255
    · rw [if_pos hd, ih (d - 255) (by omega)]
      have hn : (d - 1) / 255 = (d - 255 - 1) / 255 + 1 := by omega
      have he : d - 255 - 255 * ((d - 255 - 1) / 255)
          = d - 255 * ((d - 255 - 1) / 255 + 1) := by omega
      unfold laceRun
      rw [hn, List.replicate_succ, List.cons_append, he]
    · rw [if_neg hd]
      have h0 : (d - 1) / 255 = 0 := by omega
      simp [laceRun, h0]

theorem lacingValues_self (d : Nat) : lacingValues d d = laceRun d :=
  lacingValues_eq d d (by omega)

theorem byte_mod (c : Nat) : byte (c : Int) = c % 256 := by
  unfold byte
  omega

theorem flatten_replicate_length (n : Nat) (l : List Nat) :
    (List.replicate n l).flatten.length = n * l.length := by
  simp only [List.length_flatten, List.map_replicate, List.sum_replicate, smul_eq_mul]

/-- The page of `EncodeSilence` read back: its length, byte 26, the lacing
bytes from offset 27 and the payload after them. -/
theorem silencePage_fields (psn n : Nat) (raw : List Nat) (hL : 1 ≤ raw.length) :
    (stamped (silencePre psn n raw)).length
        = 27 + n * ((raw.length + 0xFE) / 0xFF) + n * raw.length
      ∧ (stamped (silencePre psn n raw)).getD 26 0 = (n * ((raw.length + 0xFE) / 0xFF)) % 256
      ∧ ((stamped (silencePre psn n raw)).drop 27).take (n * ((raw.length + 0xFE) / 0xFF))
        = (List.replicate n (laceRun raw.length)).flatten
      ∧ (stamped (silencePre psn n raw)).drop (27 + n * ((raw.length + 0xFE) / 0xFF))
        = (List.replicate n raw).flatten
      ∧ (psn < 2 ^ 32 → le32At (stamped (silencePre psn n raw)) 18 = psn) := by
  have hk : (raw.length + 0xFE) / 0xFF = (raw.length - 1) / 255 + 1 := by omega
  have hll : (List.replicate n (laceRun raw.length)).flatten.length
      = n * ((raw.length + 0xFE) / 0xFF) := by
    rw [flatten_replicate_length, laceRun_length, hk]
  obtain ⟨h26z, -⟩ := silencePre_zero_mid psn n raw
  obtain ⟨hseq, h26, h27⟩ := stamped_pageHead_fields psn [0, 0, 0, 0]
    (byte ((n * ((raw.length + 0xFE) / 0xFF) : Nat) : Int))
    ((List.replicate n (laceRun raw.length)).flatten ++ (List.replicate n raw).flatten) rfl
  have hpre : silencePre psn n raw
      = pageHead psn [0, 0, 0, 0] (byte ((n * ((raw.length + 0xFE) / 0xFF) : Nat) : Int))
        ++ ((List.replicate n (laceRun raw.length)).flatten
          ++ (List.replicate n raw).flatten) := rfl
  rw [← hpre] at hseq h26 h27
  refine ⟨?_, ?_, ?_, ?_, hseq⟩
  · rw [stamped_length _ h26z, hpre, List.length_append, pageHead_length, List.length_append,
      hll, flatten_replicate_length]
    simp only [List.length_cons, List.length_nil]
    omega
  · rw [h26, byte_mod]
  · rw [h27, List.take_left' hll]
  · have : (stamped (silencePre psn n raw)).drop (27 + n * ((raw.length + 0xFE) / 0xFF))
        = ((stamped (silencePre psn n raw)).drop 27).drop
          (n * ((raw.length + 0xFE) / 0xFF)) := by
      rw [List.drop_drop]
    rw [this, h27, List.drop_left' hll]

theorem zeroChecksumField_split (pre : List Nat) (a b c d : Nat) (t : List Nat)
    (hp : pre.length = 22) :
    zeroChecksumField (pre ++ (a :: b :: c :: d :: t)) = pre ++ (0 :: 0 :: 0 :: 0 :: t) := by
  unfold zeroChecksumField
  have e22 : 22 = pre.length + 0 := by omega
  have e23 : 23 = pre.length + 1 := by omega
  have e24 : 24 = pre.length + 2 := by omega
  have e25 : 25 = pre.length + 3 := by omega
  rw [e22, List.set_append_right _ _ (by omega)]
  rw [e23, List.set_append_right _ _ (by omega)]
  rw [e24, List.set_append_right _ _ (by omega)]
  rw [e25, List.set_append_right _ _ (by omega)]
  simp

/-- The output region after the codec wrote `data`: what `encoderWriteBuf`
finds from offset 0x200 on. -/
theorem codecWrite_region (data : List Nat) :
    (codecWrite (List.replicate 4096 0) oggBufFrameOffset data).drop oggBufFrameOffset
      = copy (List.replicate 3584 0) data := by
  unfold codecWrite
  have hl : ((List.replicate 4096 0).take oggBufFrameOffset).length = oggBufFrameOffset := by
    rw [List.length_take, List.length_replicate]; unfold oggBufFrameOffset; omega
  rw [List.drop_left' hl, List.drop_replicate]
  rfl

theorem copy_take (dst data : List Nat) (r : Nat) (h1 : r ≤ data.length)
    (h2 : r ≤ dst.length) : (copy dst data).take r = data.take r := by
  unfold copy
  rw [List.take_append_of_le_length (by rw [List.length_take]; omega), List.take_take]
  congr 1
  omega

/-- An encode call in Ogg framing with the region made explicit. -/
theorem unsafeEncode_ogg_region (e : Encoder) (c : CodecCall)
    (hf : e.cfg.Framing = FRAMING_OGG) (h0 : 0 ≤ c.rc) (h1 : c.rc ≤ 3584) :
    unsafeEncode e c
      = (.returned (stamped (prePage e.psn [0, 0, 0, 0] c.rc.toNat
            (copy (List.replicate 3584 0) c.data))) none,
         { e with psn := (e.psn + 1) % 2 ^ 32 }) := by
  have hlen : (codecWrite (List.replicate 4096 0) oggBufFrameOffset c.data).length = 4096 := by
    rw [codecWrite_length _ _ _ (by rw [List.length_replicate]; unfold oggBufFrameOffset; omega),
      List.length_replicate]
  unfold unsafeEncode encoderGetBufForRaw
  simp only [if_pos hf]
  rw [encoderWriteBuf_ogg e _ c.rc hf hlen h0 h1, codecWrite_mid, codecWrite_region]
  have : (c.rc.toNat + 0xFE) / 0xFF ≤ 15 := by omega
  unfold oggBufFrameOffset
  omega

/-- C11 (code defect): the payload of the second page of `StreamHeader` is the
13 bytes 'OpusTags', 1, 0, 0, 0, 'x': the vendor string of length 1 is there,
the 4-byte user-comment count is not, so it is not a complete comment header;
the 12 bytes its segment table covers stop before the vendor byte. -/
theorem C11_comment_header_incomplete :
    ∃ p0 p1, (StreamHeader ⟨1, [], DefaultConfig, 2⟩).1 = .returned (p0 ++ p1) none
      ∧ p0.length = 47
      ∧ payload p1 = [79, 112, 117, 115, 84, 97, 103, 115, 1, 0, 0, 0, 120]
      ∧ isEmptyCommentHeader (payload p1) = false
      ∧ isEmptyCommentHeader ((payload p1).take (segmentTable p1).sum) = false
      ∧ isEmptyCommentHeader (payload p1 ++ [0, 0, 0, 0]) = true := by
  obtain ⟨v0, v1, h0, h1⟩ := StreamHeader_pages ⟨1, [], DefaultConfig, 2⟩
  refine ⟨_, _, by rw [StreamHeader_eq _ rfl], ?_⟩
  rw [h0, h1]
  have hp : payload ([79, 103, 103, 83, 0, 0, 0, 0, 0, 0, 0, 0, 0, 0, 0x11, 0x22, 0x33, 0x44,
            1, 0, 0, 0] ++ (le4 v1 ++ [1, 12, 79, 112, 117, 115, 84, 97, 103, 115,
            1, 0, 0, 0, 120]))
      = [79, 112, 117, 115, 84, 97, 103, 115, 1, 0, 0, 0, 120] := by
    simp [le4, payload]
  have hs : segmentTable ([79, 103, 103, 83, 0, 0, 0, 0, 0, 0, 0, 0, 0, 0, 0x11, 0x22, 0x33,
            0x44, 1, 0, 0, 0] ++ (le4 v1 ++ [1, 12, 79, 112, 117, 115, 84, 97, 103, 115,
            1, 0, 0, 0, 120])) = [12] := by
    simp [le4, segmentTable]
  rw [hp, hs]
  exact ⟨by simp [le4], rfl, by decide, by decide, by decide⟩

/-- C12: for `ntimes = n ≥ 1` and a payload `raw` of `L ≥ 1` bytes,
`EncodeSilence` returns one page of `27 + n * ceil(L / 255) + n * L` bytes:
from offset 27 on come `n` copies of the lacing run for `L` (255 while more
than 255 remains, then the remainder), then `raw` repeated `n` times, `n * L`
bytes; the counter advances by one, modulo `2 ^ 32`, whatever `n` is. -/
theorem C12_silence_page (e : Encoder) (s : Silence) (hn : 1 ≤ s.ntimes)
    (hL : 1 ≤ s.raw.length) :
    ∃ page, EncodeSilence e s = (.returned page none, { e with psn := (e.psn + 1) % 2 ^ 32 })
      ∧ page.length = 27 + s.ntimes.toNat * ((s.raw.length + 254) / 255)
          + s.ntimes.toNat * s.raw.length
      ∧ (page.drop 27).take (s.ntimes.toNat * ((s.raw.length + 254) / 255))
          = (List.replicate s.ntimes.toNat
              (lacingValues s.raw.length s.raw.length)).flatten
      ∧ page.drop (27 + s.ntimes.toNat * ((s.raw.length + 254) / 255))
          = (List.replicate s.ntimes.toNat s.raw).flatten
      ∧ (page.drop (27 + s.ntimes.toNat * ((s.raw.length + 254) / 255))).length
          = s.ntimes.toNat * s.raw.length
      ∧ (e.psn + 1 < 2 ^ 32 → (EncodeSilence e s).2.psn = e.psn + 1) := by
  obtain ⟨h1, -, h3, h4, -⟩ := silencePage_fields e.psn s.ntimes.toNat s.raw hL
  rw [EncodeSilence_ok e s hn hL]
  refine ⟨_, rfl, h1, ?_, h4, ?_, fun hp => Nat.mod_eq_of_lt hp⟩
  · rw [lacingValues_self]; exact h3
  · rw [h4, flatten_replicate_length]

/-- C12 at the silence of the 500 ms example: eight copies of a three-byte
payload on the default session. -/
theorem C12_silence_page_witness :
    ∃ page, EncodeSilence ⟨1, [], DefaultConfig, 2⟩ ⟨[5, 6, 7], 8⟩
        = (.returned page none, ⟨1, [], DefaultConfig, 3⟩)
      ∧ page.length = 27 + 8 * 1 + 8 * 3
      ∧ (page.drop 27).take (8 * 1) = [3, 3, 3, 3, 3, 3, 3, 3]
      ∧ page.drop (27 + 8 * 1)
        = [5, 6, 7, 5, 6, 7, 5, 6, 7, 5, 6, 7, 5, 6, 7, 5, 6, 7, 5, 6, 7, 5, 6, 7]
      ∧ (page.drop (27 + 8 * 1)).length = 8 * 3
      ∧ ((2 : Nat) + 1 < 2 ^ 32 →
          (EncodeSilence ⟨1, [], DefaultConfig, 2⟩ ⟨[5, 6, 7], 8⟩).2.psn = 2 + 1) :=
  C12_silence_page ⟨1, [], DefaultConfig, 2⟩ ⟨[5, 6, 7], 8⟩ (by decide) (by decide)

/-- C13 fails: with repeat count 256 and a one-byte payload `EncodeSilence`
writes 256 segment-table bytes (offsets 27..282, the payload starts at 283),
and byte 26 holds 0. -/
theorem C13_byte26_wraps_at_256 :
    ∃ page, (EncodeSilence ⟨1, [], DefaultConfig, 2⟩ ⟨[5], 256⟩).1 = .returned page none
      ∧ page.getD 26 0 = 0
      ∧ (page.drop 27).take 256 = List.replicate 256 1
      ∧ page.drop (27 + 256) = List.replicate 256 5
      ∧ 256 * ((([5] : List Nat).length + 254) / 255) = 256 := by
  obtain ⟨-, h2, h3, h4, -⟩ := silencePage_fields 2 256 [5] (by decide)
  rw [EncodeSilence_ok ⟨1, [], DefaultConfig, 2⟩ ⟨[5], 256⟩ (by decide) (by decide)]
  refine ⟨_, rfl, h2, ?_, ?_, by decide⟩
  · have : (List.replicate 256 (laceRun ([5] : List Nat).length)).flatten
        = List.replicate 256 1 := by
      have hl : laceRun ([5] : List Nat).length = [1] := by decide
      rw [hl, List.flatten_replicate_singleton]
    rw [← this]; exact h3
  · have : (List.replicate 256 ([5] : List Nat)).flatten = List.replicate 256 5 :=
      List.flatten_replicate_singleton
    rw [← this]; exact h4

/-- C13 as amended: for every page `EncodeSilence` returns (`ntimes ≥ 1`, a
non-empty payload) the number of segment-table bytes between offset 27 and the
first payload byte is `ntimes * ceil(len(raw) / 255)`, byte 26 holds that
number modulo 256, and so equals it whenever it is at most 255. -/
theorem C13_segment_count (e : Encoder) (s : Silence) (hn : 1 ≤ s.ntimes)
    (hL : 1 ≤ s.raw.length) :
    ∃ page, (EncodeSilence e s).1 = .returned page none
      ∧ page.length - s.ntimes.toNat * s.raw.length - 27
          = s.ntimes.toNat * ((s.raw.length + 254) / 255)
      ∧ page.drop (27 + s.ntimes.toNat * ((s.raw.length + 254) / 255))
          = (List.replicate s.ntimes.toNat s.raw).flatten
      ∧ page.getD 26 0 = (s.ntimes.toNat * ((s.raw.length + 254) / 255)) % 256
      ∧ (s.ntimes.toNat * ((s.raw.length + 254) / 255) ≤ 255 →
          page.getD 26 0 = s.ntimes.toNat * ((s.raw.length + 254) / 255)) := by
  obtain ⟨h1, h2, -, h4, -⟩ := silencePage_fields e.psn s.ntimes.toNat s.raw hL
  rw [EncodeSilence_ok e s hn hL]
  refine ⟨_, rfl, ?_, h4, h2, fun hle => ?_⟩
  · rw [h1]; omega
  · rw [h2]; exact Nat.mod_eq_of_lt (by omega)

/-- C13 as amended, at eight copies of a three-byte payload: 8 segment-table
bytes, and byte 26 holds 8. -/
theorem C13_segment_count_witness :
    ∃ page, (EncodeSilence ⟨1, [], DefaultConfig, 2⟩ ⟨[5, 6, 7], 8⟩).1 = .returned page none
      ∧ page.length - 8 * 3 - 27 = 8 * 1
      ∧ page.drop (27 + 8 * 1)
        = [5, 6, 7, 5, 6, 7, 5, 6, 7, 5, 6, 7, 5, 6, 7, 5, 6, 7, 5, 6, 7, 5, 6, 7]
      ∧ page.getD 26 0 = (8 * 1) % 256
      ∧ (8 * 1 ≤ 255 → page.getD 26 0 = 8 * 1) :=
  C13_segment_count ⟨1, [], DefaultConfig, 2⟩ ⟨[5, 6, 7], 8⟩ (by decide) (by decide)

set_option maxRecDepth 20000 in
/-- The stamp computed on three 26-byte buffers: zero except for byte 22 = 1,
all zero, and the all-zero buffer after one stamp. -/
theorem oggChecksum_examples :
    oggChecksum (List.replicate 22 0 ++ [1, 0, 0, 0])
        = some (List.replicate 22 0 ++ [222, 103, 193, 253])
      ∧ le32At (List.replicate 22 0 ++ [222, 103, 193, 253]) 22 = 0xFDC167DE
      ∧ Checksum (zeroChecksumField (List.replicate 22 0 ++ [1, 0, 0, 0])) oggCrc32
        = 0xFCF2F65D
      ∧ oggChecksum (List.replicate 26 0) = some (List.replicate 22 0 ++ [93, 246, 242, 252])
      ∧ oggChecksum (List.replicate 22 0 ++ [93, 246, 242, 252])
        = some (List.replicate 22 0 ++ [129, 172, 123, 252]) :=
  ⟨by rfl, by rfl, by rfl, by rfl, by rfl⟩

/-- C15 fails: `oggChecksum` does not zero the field before it computes. On
the 26-byte buffer that is zero except for byte 22 = 1 it stores 0xFDC167DE,
the checksum of the buffer as it is, while the checksum of the buffer with
bytes 22..25 zeroed is 0xFCF2F65D; and on the zero buffer a second application
changes the stored value. -/
theorem C15_field_not_zeroed :
    oggChecksum (List.replicate 22 0 ++ [1, 0, 0, 0])
        = some (List.replicate 22 0 ++ [222, 103, 193, 253])
      ∧ le32At (List.replicate 22 0 ++ [222, 103, 193, 253]) 22 = 0xFDC167DE
      ∧ Checksum (zeroChecksumField (List.replicate 22 0 ++ [1, 0, 0, 0])) oggCrc32
        = 0xFCF2F65D
      ∧ le32At (List.replicate 22 0 ++ [222, 103, 193, 253]) 22
        ≠ Checksum (zeroChecksumField (List.replicate 22 0 ++ [1, 0, 0, 0])) oggCrc32
      ∧ oggChecksum (List.replicate 26 0) = some (List.replicate 22 0 ++ [93, 246, 242, 252])
      ∧ oggChecksum (List.replicate 22 0 ++ [93, 246, 242, 252])
        = some (List.replicate 22 0 ++ [129, 172, 123, 252]) :=
  ⟨oggChecksum_examples.1, oggChecksum_examples.2.1, oggChecksum_examples.2.2.1,
    by rw [oggChecksum_examples.2.1, oggChecksum_examples.2.2.1]; decide,
    oggChecksum_examples.2.2.2.1, oggChecksum_examples.2.2.2.2⟩

/-- C15 as amended: on every buffer of at least 26 bytes `oggChecksum`
computes the checksum of the buffer as it is and writes it little-endian into
bytes 22..25, leaving the length and every other byte unchanged; when bytes
22..25 were zero before the call, as they are at every call site, the stored
value is the checksum of the buffer with bytes 22..25 set to zero. -/
theorem C15_stamp (bs : List Nat) (h : 26 ≤ bs.length) :
    ∃ page, oggChecksum bs = some page
      ∧ page.length = bs.length
      ∧ le32At page 22 = Checksum bs oggCrc32
      ∧ (∀ i, i < 22 ∨ 26 ≤ i → page[i]? = bs[i]?)
      ∧ ((bs.drop 22).take 4 = [0, 0, 0, 0] →
          le32At page 22 = Checksum (zeroChecksumField bs) oggCrc32) := by
  have hlen : (bs.take 22).length = 22 := by rw [List.length_take]; omega
  have h22 : le32At (bs.take 22 ++ (le4 (Checksum bs oggCrc32) ++ bs.drop 26)) 22
      = Checksum bs oggCrc32 := by
    have := le32At_le4 (bs.take 22) (bs.drop 26) _ (Checksum_lt bs)
    rwa [hlen] at this
  refine ⟨_, oggChecksum_eq bs h, ?_, h22, fun i hi => ?_, fun hz => ?_⟩
  · have := stamped_length bs h
    unfold stamped at this
    exact this
  · rcases hi with hi | hi
    · rw [List.getElem?_append_left (by rw [hlen]; exact hi), List.getElem?_take_of_lt hi]
    · rw [List.getElem?_append_right (by rw [hlen]; omega), hlen,
        List.getElem?_append_right (by simp [le4]; omega)]
      simp only [le4, List.length_cons, List.length_nil, List.getElem?_drop]
      congr 1
      omega
  · rw [h22]
    obtain ⟨a, b, c, d, hsplit, h4⟩ := split_four bs 22 (by omega)
    rw [hz] at h4
    injection h4 with ha h4; injection h4 with hb h4; injection h4 with hc h4
    injection h4 with hd _
    subst ha hb hc hd
    have hz2 : zeroChecksumField bs = bs := by
      conv_lhs => rw [hsplit]
      rw [zeroChecksumField_split _ _ _ _ _ _ hlen]
      exact hsplit.symm
    rw [hz2]

/-- C15 as amended, at a 28-byte buffer with a zero checksum field. -/
theorem C15_stamp_witness :
    ∃ page, oggChecksum (List.replicate 26 0 ++ [7, 9]) = some page
      ∧ page.length = (List.replicate 26 0 ++ [7, 9]).length
      ∧ le32At page 22 = Checksum (List.replicate 26 0 ++ [7, 9]) oggCrc32
      ∧ (∀ i, i < 22 ∨ 26 ≤ i → page[i]? = (List.replicate 26 0 ++ [7, 9])[i]?)
      ∧ (((List.replicate 26 0 ++ [7, 9]).drop 22).take 4 = [0, 0, 0, 0] →
          le32At page 22
            = Checksum (zeroChecksumField (List.replicate 26 0 ++ [7, 9])) oggCrc32) :=
  C15_stamp (List.replicate 26 0 ++ [7, 9]) (by decide)

/-- C16: in Ogg framing, for every codec result `0 ≤ rc ≤ 3584` (3584 is the
size of the region `encoderGetBufForRaw` hands to the codec, 4096 - 0x200)
`encoderWriteBuf` returns a page and no error and counts it: the header length
`27 + ceil(rc / 255)` is at most 42, below 0x200, so the header-too-large
branch is not taken, and no index or slice bound is out of range (the call
does not panic). -/
theorem C16_encode_never_fails (e : Encoder) (all : List Nat) (rc : Int)
    (hf : e.cfg.Framing = FRAMING_OGG) (hall : all.length = 4096)
    (h0 : 0 ≤ rc) (h1 : rc ≤ 3584) :
    (∃ page, encoderWriteBuf e all rc
        = (.returned page none, { e with psn := (e.psn + 1) % 2 ^ 32 })
      ∧ page.length = 27 + (rc.toNat + 0xFE) / 0xFF + rc.toNat)
      ∧ 27 + (rc.toNat + 0xFE) / 0xFF ≤ 42 ∧ 42 ≤ oggBufFrameOffset
      ∧ (encoderGetBufForRaw e).1.length = 4096
      ∧ (encoderGetBufForRaw e).1.length - (encoderGetBufForRaw e).2 = 3584 := by
  have hm : ((all.drop (oggBufFrameOffset - (27 + (rc.toNat + 0xFE) / 0xFF) + 22)).take 4).length
      = 4 := by
    rw [List.length_take, List.length_drop, hall]
    unfold oggBufFrameOffset
    omega
  have hbuf : encoderGetBufForRaw e = (List.replicate 4096 0, oggBufFrameOffset) := by
    unfold encoderGetBufForRaw
    simp only [if_pos hf]
  refine ⟨⟨_, encoderWriteBuf_ogg e all rc hf hall h0 h1, ?_⟩, by omega, by decide, ?_, ?_⟩
  · have hreg : (all.drop oggBufFrameOffset).length = 3584 := by
      rw [List.length_drop, hall]; rfl
    have hpl : 26 ≤ (prePage e.psn
        ((all.drop (oggBufFrameOffset - (27 + (rc.toNat + 0xFE) / 0xFF) + 22)).take 4)
        rc.toNat (all.drop oggBufFrameOffset)).length := by
      unfold prePage
      rw [List.length_append, pageHead_length, hm]; omega
    rw [stamped_length _ hpl]
    unfold prePage
    rw [List.length_append, pageHead_length, hm, List.length_append, List.length_take,
      List.length_take, laceRun_length, hreg]
    omega
  · rw [hbuf, List.length_replicate]
  · rw [hbuf, List.length_replicate]; rfl

/-- C16 at the largest codec result, 3584 bytes, on the default session. -/
theorem C16_encode_never_fails_witness :
    (∃ page, encoderWriteBuf ⟨1, [], DefaultConfig, 2⟩ (List.replicate 4096 0) 3584
        = (.returned page none, ⟨1, [], DefaultConfig, (2 + 1) % 2 ^ 32⟩)
      ∧ page.length = 27 + ((3584 : Int).toNat + 0xFE) / 0xFF + (3584 : Int).toNat)
      ∧ 27 + ((3584 : Int).toNat + 0xFE) / 0xFF ≤ 42 ∧ 42 ≤ oggBufFrameOffset
      ∧ (encoderGetBufForRaw ⟨1, [], DefaultConfig, 2⟩).1.length = 4096
      ∧ (encoderGetBufForRaw ⟨1, [], DefaultConfig, 2⟩).1.length
          - (encoderGetBufForRaw ⟨1, [], DefaultConfig, 2⟩).2 = 3584 :=
  C16_encode_never_fails ⟨1, [], DefaultConfig, 2⟩ (List.replicate 4096 0) 3584 rfl
    (List.length_replicate _ _) (by decide) (by decide)

/-- C17: in Ogg framing with counter value `p`, for a codec result
`1 ≤ rc ≤ 3584` whose `rc` bytes the codec wrote at offset 0x200 of the
4096-byte buffer, the page returned is exactly: the 18 bytes 'OggS', 0, 0,
eight zero bytes, 0x11, 0x22, 0x33, 0x44; `p` in 4 little-endian bytes; the 4
bytes of the checksum (of the page with a zero checksum field); the byte
`ceil(rc / 255)`; the `ceil(rc / 255)` lacing values of `rc`; the first `rc`
bytes of the codec's output, unchanged. Its length is
`27 + ceil(rc / 255) + rc`. -/
theorem C17_page_layout (e : Encoder) (c : CodecCall)
    (hf : e.cfg.Framing = FRAMING_OGG) (h1 : 1 ≤ c.rc) (h2 : c.rc ≤ 3584)
    (hd : c.rc.toNat ≤ c.data.length) :
    ∃ page, unsafeEncode e c = (.returned page none, { e with psn := (e.psn + 1) % 2 ^ 32 })
      ∧ page = [79, 103, 103, 83, 0, 0, 0, 0, 0, 0, 0, 0, 0, 0, 0x11, 0x22, 0x33, 0x44]
          ++ (le4 e.psn ++ (le4 (Checksum (zeroChecksumField page) oggCrc32)
          ++ ([(c.rc.toNat + 254) / 255] ++ (lacingValues c.rc.toNat c.rc.toNat
          ++ c.data.take c.rc.toNat))))
      ∧ (lacingValues c.rc.toNat c.rc.toNat).length = (c.rc.toNat + 254) / 255
      ∧ (c.data.take c.rc.toNat).length = c.rc.toNat
      ∧ page.length = 27 + (c.rc.toNat + 254) / 255 + c.rc.toNat := by
  have hr : 1 ≤ c.rc.toNat ∧ c.rc.toNat ≤ 3584 := by omega
  have hue := unsafeEncode_ogg_region e c hf (by omega) h2
  generalize c.rc.toNat = r at hr hd hue ⊢
  have hc : (r + 0xFE) / 0xFF = (r - 1) / 255 + 1 := by omega
  have hcb : byte (((r + 0xFE) / 0xFF : Nat) : Int) = (r + 254) / 255 :=
    byte_small _ (by omega)
  have hlv : lacingValues r r = laceRun r := lacingValues_self r
  have hll : (laceRun r).length = (r + 254) / 255 := by rw [laceRun_length]; omega
  have hpre : prePage e.psn [0, 0, 0, 0] r (copy (List.replicate 3584 0) c.data)
      = pageHead e.psn [0, 0, 0, 0] ((r + 254) / 255) ++ (laceRun r ++ c.data.take r) := by
    unfold prePage
    rw [hcb, List.take_of_length_le (by rw [hll]),
      copy_take _ _ _ hd (by rw [List.length_replicate]; omega)]
  obtain ⟨h26, hz⟩ := prePage_zero_mid e.psn r (copy (List.replicate 3584 0) c.data)
  have hrt := stamped_roundtrip _ h26 hz
  have hle : le32At (stamped (prePage e.psn [0, 0, 0, 0] r (copy (List.replicate 3584 0) c.data)))
      22 = Checksum (prePage e.psn [0, 0, 0, 0] r (copy (List.replicate 3584 0) c.data))
        oggCrc32 := by
    unfold stamped
    have hlen : ((prePage e.psn [0, 0, 0, 0] r (copy (List.replicate 3584 0) c.data)).take
        22).length = 22 := by rw [List.length_take]; omega
    have := le32At_le4 ((prePage e.psn [0, 0, 0, 0] r
      (copy (List.replicate 3584 0) c.data)).take 22)
      ((prePage e.psn [0, 0, 0, 0] r (copy (List.replicate 3584 0) c.data)).drop 26) _
      (Checksum_lt (prePage e.psn [0, 0, 0, 0] r (copy (List.replicate 3584 0) c.data)))
    rwa [hlen] at this
  have hdl : (c.data.take r).length = r := by rw [List.length_take]; omega
  refine ⟨_, hue, ?_, by rw [hlv, hll], hdl, ?_⟩
  · rw [hrt, hle, hlv]
    conv_lhs => rw [hpre, stamped_pageHead e.psn [0, 0, 0, 0] _ _ rfl, ← hpre]
    rfl
  · rw [stamped_length _ h26, hpre, List.length_append, pageHead_length, List.length_append,
      hll, hdl]
    simp only [List.length_cons, List.length_nil]
    omega

/-- C17 at a three-byte codec result on the default session. -/
theorem C17_page_layout_witness :
    ∃ page, unsafeEncode ⟨1, [], DefaultConfig, 2⟩ ⟨[7, 8, 9], 3⟩
        = (.returned page none, ⟨1, [], DefaultConfig, (2 + 1) % 2 ^ 32⟩)
      ∧ page = [79, 103, 103, 83, 0, 0, 0, 0, 0, 0, 0, 0, 0, 0, 0x11, 0x22, 0x33, 0x44]
          ++ (le4 2 ++ (le4 (Checksum (zeroChecksumField page) oggCrc32)
          ++ ([(3 + 254) / 255] ++ (lacingValues 3 3 ++ [7, 8, 9]))))
      ∧ (lacingValues 3 3).length = (3 + 254) / 255
      ∧ ([7, 8, 9] : List Nat).length = 3
      ∧ page.length = 27 + (3 + 254) / 255 + 3 :=
  C17_page_layout ⟨1, [], DefaultConfig, 2⟩ ⟨[7, 8, 9], 3⟩ rfl (by decide) (by decide)
    (by decide)

theorem tdiv_small (d : Int) (h1 : -120 < d) (h2 : d < 120) : d.tdiv 120 = 0 := by
  rcases Int.lt_or_le d 0 with hneg | hpos
  · have : d.tdiv 120 = -((-d).tdiv 120) := by
      rw [Int.neg_tdiv, Int.neg_neg]
    rw [this, Int.tdiv_eq_ediv (by omega) (by decide)]
    omega
  · rw [Int.tdiv_eq_ediv hpos (by decide)]
    omega

theorem tdiv_neg_large (d : Int) (h : d ≤ -120) : d.tdiv 120 ≤ -1 := by
  have : d.tdiv 120 = -((-d).tdiv 120) := by
    rw [Int.neg_tdiv, Int.neg_neg]
  rw [this, Int.tdiv_eq_ediv (by omega) (by decide)]
  omega

/-- C18 fails in its remark on `CreateSilence`: for a duration of -144 samples
(-3 ms at 48000 Hz), smaller than the block size 120 that `sampleSize`
chooses, the repeat count is -1, not 0. -/
theorem C18_negative_duration :
    (-144 : Int) < sampleSize (-144)
      ∧ ∃ raw, CreateSilence ⟨1, [], DefaultConfig, 2⟩ (-144) ⟨[1, 2, 3], 3⟩
        = .returned (some ⟨raw, -1⟩) none := by
  have hs : sampleSize (-144) = 120 := by decide
  obtain ⟨raw, -, h⟩ := CreateSilence_ok ⟨1, [], DefaultConfig, 2⟩ (-144) ⟨[1, 2, 3], 3⟩
    (by decide) (by decide) (by decide)
  have hq : (-144 : Int).tdiv (sampleSize (-144)) = -1 := by rw [hs]; decide
  rw [hq] at h
  exact ⟨by rw [hs]; decide, raw, h⟩

/-- C18 as amended: `EncodeSilence` returns a page exactly when `ntimes ≥ 1`
and the payload is not empty; otherwise it panics before the counter is
touched. For repeat count 0 the buffer has 27 bytes, `oggSplatHeader` fails on
it (on 28 bytes it does not: the failing write is the one to index 27), no
page is returned and `psn` is not incremented. `CreateSilence` produces repeat
count 0 for every duration `-120 < d < 120`, among them every non-negative
duration below the block size chosen; for `d ≤ -120` the repeat count is
negative. -/
theorem C18_silence_page_iff (e : Encoder) (s : Silence) :
    ((∃ page, (EncodeSilence e s).1 = .returned page none)
        ↔ (1 ≤ s.ntimes ∧ 1 ≤ s.raw.length))
      ∧ (¬ (1 ≤ s.ntimes ∧ 1 ≤ s.raw.length) → ∃ msg, EncodeSilence e s = (.panicked msg, e))
      ∧ (s.ntimes = 0 →
          27 + s.ntimes * (((s.raw.length : Int) + 0xFE) / 0xFF)
              + s.ntimes * (s.raw.length : Int) = 27
            ∧ oggSplatHeader (List.replicate 27 0) e.psn 0 = none
            ∧ (oggSplatHeader (List.replicate 28 0) e.psn 0).isSome = true
            ∧ EncodeSilence e s = (.panicked "index out of range", e)
            ∧ (EncodeSilence e s).2.psn = e.psn)
      ∧ (∀ (enc : Encoder) (d : Int) (c : CodecCall), 0 < enc.cfg.Channels → 0 ≤ c.rc →
          c.rc ≤ 255 → -120 < d → d < 120 →
          d < sampleSize d ∧ ∃ raw, CreateSilence enc d c = .returned (some ⟨raw, 0⟩) none)
      ∧ (∀ d : Int, 0 ≤ d → (d < sampleSize d ↔ d < 120))
      ∧ (∀ (enc : Encoder) (d : Int) (c : CodecCall), 0 < enc.cfg.Channels → 0 ≤ c.rc →
          c.rc ≤ 255 → d ≤ -120 →
          ∃ raw n, CreateSilence enc d c = .returned (some ⟨raw, n⟩) none ∧ n ≤ -1) := by
  have hpanic : ¬ (1 ≤ s.ntimes ∧ 1 ≤ s.raw.length) →
      ∃ msg, EncodeSilence e s = (.panicked msg, e) := fun h =>
    EncodeSilence_panics e s (by omega)
  refine ⟨⟨fun ⟨page, hpage⟩ => ?_, fun h => ?_⟩, hpanic, fun h0 => ?_,
    fun enc d c hch hr0 hr1 hd1 hd2 => ?_, fun d hd => ?_, fun enc d c hch hr0 hr1 hd => ?_⟩
  · by_contra hnot
    obtain ⟨msg, hmsg⟩ := hpanic hnot
    rw [hmsg] at hpage
    cases hpage
  · rw [EncodeSilence_ok e s h.1 h.2]
    exact ⟨_, rfl⟩
  · have hnone : oggSplatHeader (List.replicate 27 0) e.psn 0 = none :=
      oggSplatHeader_none _ _ _ (by rw [List.length_replicate]; omega)
    have hsome : (oggSplatHeader (List.replicate 28 0) e.psn 0).isSome = true := by
      rw [oggSplatHeader_eq _ _ 0 (by rw [List.length_replicate])]
      rfl
    have hE : EncodeSilence e s = (.panicked "index out of range", e) := by
      unfold EncodeSilence
      simp only [h0, Int.zero_mul, Int.add_zero]
      rw [if_neg (by decide)]
      have : (27 : Int).toNat = 27 := rfl
      rw [this, hnone]
    refine ⟨by rw [h0]; simp, hnone, hsome, hE, by rw [hE]⟩
  · have hs : sampleSize d = 120 := by
      rw [sampleSize_eq]; split_ifs <;> omega
    obtain ⟨raw, -, h⟩ := CreateSilence_ok enc d c hch hr0 hr1
    rw [hs, tdiv_small d hd1 hd2] at h
    exact ⟨by omega, raw, h⟩
  · rw [sampleSize_eq]
    split_ifs <;> omega
  · have hs : sampleSize d = 120 := by
      rw [sampleSize_eq]; split_ifs <;> omega
    obtain ⟨raw, -, h⟩ := CreateSilence_ok enc d c hch hr0 hr1
    rw [hs] at h
    exact ⟨raw, _, h, tdiv_neg_large d hd⟩

/-- C18 as amended, at the silence `CreateSilence` makes of 100 samples on the
default session: repeat count 0, and `EncodeSilence` panics on it with the
counter unchanged. -/
theorem C18_silence_page_iff_witness :
    (∃ raw, CreateSilence ⟨1, [], DefaultConfig, 2⟩ 100 ⟨[1, 2, 3], 3⟩
        = .returned (some ⟨raw, 0⟩) none)
      ∧ EncodeSilence ⟨1, [], DefaultConfig, 2⟩ ⟨[1, 2, 3], 0⟩
        = (.panicked "index out of range", ⟨1, [], DefaultConfig, 2⟩) :=
  ⟨((C18_silence_page_iff ⟨1, [], DefaultConfig, 2⟩ ⟨[1, 2, 3], 0⟩).2.2.2.1
      ⟨1, [], DefaultConfig, 2⟩ 100 ⟨[1, 2, 3], 3⟩ (by decide) (by decide) (by decide)
      (by decide) (by decide)).2,
    ((C18_silence_page_iff ⟨1, [], DefaultConfig, 2⟩ ⟨[1, 2, 3], 0⟩).2.2.1 rfl).2.2.2.1⟩

end Opus
